import Mathlib

/-!
# Storage utilities of the API server (`k8s.io/apiserver/pkg/storage/util.go`)

A shallow embedding of the key functions `NamespaceKeyFunc` / `NoNamespaceKeyFunc`,
of the lock-free counter `HighWaterMark` (run alone and under interleaved
concurrent callers), of `SimpleUpdate` and the trigger hooks, of the guarded
update the specification describes, of `NewDefaultConfig`
(`storagebackend/config.go`) and of the defaults of the typed networking client
(`argus_networking_client.go`), followed by the properties established about
them.

Conventions of the embedding:

* Go strings are Lean `String`s; concatenation `+` is `++`. The separator `/`
  and the character `%` are single ASCII characters, so looking for them among
  the characters of a string agrees with `strings.Contains` on the bytes of
  well-formed UTF-8 text.
* A Go result pair `(string, error)` is a pair `String × Option KeyError`,
  `none` standing for the `nil` error.
* An `int64` is an `Int`; `Update` only compares and stores, it does no
  arithmetic, so no wrap-around is involved.
-/

namespace Storage

/-! ## Data model -/

/-- The part of `metav1.Object` that the key functions read: `GetName()`,
`GetNamespace()` and `GetAccountID()`. -/
structure ObjectMeta where
  Name : String
  Namespace : String
  AccountID : String
deriving DecidableEq, Repr

/-- A `runtime.Object` as seen through `meta.Accessor`: either a value that
exposes object metadata, or one that does not (a `nil` object included). -/
inductive Object where
  | withMeta (m : ObjectMeta)
  | withoutMeta
deriving DecidableEq, Repr

/-- Errors the key functions can return. -/
inductive KeyError where
  /-- the error `meta.Accessor` reports for an object without metadata -/
  | errNotObject
  /-- the error built by `fmt.Errorf("invalid name: %v", msgs)` -/
  | invalidName (msgs : List String)
deriving DecidableEq, Repr

/-- Modelled from the spec: `meta.Accessor` of `k8s.io/apimachinery/pkg/api/meta`,
which is not among the listed sources. It hands back the metadata of an object
that has some and fails otherwise. -/
def Accessor : Object → Except KeyError ObjectMeta
  | .withMeta m => .ok m
  | .withoutMeta => .error .errNotObject

/-- `strings.Contains(s, substr)` on character lists: whether `substr` occurs
in `s` as a contiguous piece. -/
def containsChars (substr : List Char) : List Char → Bool
  | [] => substr.isEmpty
  | c :: cs => substr.isPrefixOf (c :: cs) || containsChars substr cs

/-- `strings.Contains(s, substr)` of the Go standard library. -/
def Contains (s substr : String) : Bool := containsChars substr.data s.data

/-- `NameMayNotBe` of `k8s.io/apimachinery/pkg/api/validation/path`: the strings
that cannot be used as names given as path segments. The package is not among
the listed sources. -/
def NameMayNotBe : List String := [".", ".."]

/-- `NameMayNotContain` of `k8s.io/apimachinery/pkg/api/validation/path`: the
substrings that cannot occur in names given as path segments. The package is
not among the listed sources. -/
def NameMayNotContain : List String := ["/", "%"]

/-- Stand-in for `path.IsValidPathSegmentName` of
`k8s.io/apimachinery/pkg/api/validation/path`, which is not among the listed
sources. It follows the helper the key functions call, not the wording of the
specification (which asks for a non-empty name and does not mention `%`): a
name equal to one of `NameMayNotBe` yields the single complaint
`may not be '<name>'`; any other name yields one complaint
`may not contain '<substring>'` for every member of `NameMayNotContain` that
occurs in it. The result is empty for a valid name; the empty name is valid. -/
def IsValidPathSegmentName (name : String) : List String :=
  match NameMayNotBe.find? (fun illegalName => name = illegalName) with
  | some illegalName => ["may not be \x27" ++ illegalName ++ "\x27"]
  | none =>
    (NameMayNotContain.filter (fun illegalContent => Contains name illegalContent)).map
      (fun illegalContent => "may not contain \x27" ++ illegalContent ++ "\x27")

/-! ## Key functions -/

/-- `NamespaceKeyFunc(prefix, obj)`: the key `prefix/accountID/namespace/name`. -/
def NamespaceKeyFunc (pfx : String) (obj : Object) : String × Option KeyError :=
  match Accessor obj with
  | .error err => ("", some err)
  | .ok m =>
    let name := m.Name
    let msgs := IsValidPathSegmentName name
    if msgs.length ≠ 0 then
      ("", some (.invalidName msgs))
    else
      (pfx ++ "/" ++ m.AccountID ++ "/" ++ m.Namespace ++ "/" ++ name, none)

/-- `NoNamespaceKeyFunc(prefix, obj)`: the key `prefix/accountID/name`. -/
def NoNamespaceKeyFunc (pfx : String) (obj : Object) : String × Option KeyError :=
  match Accessor obj with
  | .error err => ("", some err)
  | .ok m =>
    let name := m.Name
    let msgs := IsValidPathSegmentName name
    if msgs.length ≠ 0 then
      ("", some (.invalidName msgs))
    else
      (pfx ++ "/" ++ m.AccountID ++ "/" ++ name, none)

/-! ## Decoding a key (specification side)

The source has no decoder. The spec speaks of "decoding the fixed segment
order"; the following is that decoder, written from the spec's words: drop
`prefix + "/"` from the front of the key and split the rest at every `/`. -/

/-- Split a character list at every `/` (the behaviour of `strings.Split(s, "/")`). -/
def splitSlash : List Char → List (List Char)
  | [] => [[]]
  | c :: cs =>
    if c = '/' then [] :: splitSlash cs
    else
      match splitSlash cs with
      | [] => [[c]]
      | seg :: rest => (c :: seg) :: rest

/-- The segments of a key behind `prefix + "/"`. -/
def decodeKey (pfx key : String) : List String :=
  (splitSlash (key.data.drop (pfx.length + 1))).map String.mk

/-! ## HighWaterMark -/

/-- `type HighWaterMark int64`: the shared cell holding the largest value seen. -/
abbrev HighWaterMark := Int

/-- `atomic.LoadInt64(addr)`. -/
def LoadInt64 (addr : HighWaterMark) : Int := addr

/-- `atomic.CompareAndSwapInt64(addr, old, new)`: whether the swap took place,
and the cell afterwards. -/
def CompareAndSwapInt64 (addr : HighWaterMark) (old new : Int) : Bool × HighWaterMark :=
  if addr = old then (true, new) else (false, addr)

/-- What a call of `Update` leaves behind: the returned boolean, the cell, and
the number of compare-and-swap operations the call issued. -/
structure UpdateOutcome where
  result : Bool
  hwm : HighWaterMark
  swaps : Nat
deriving DecidableEq, Repr

/-- The `for` loop of `Update`, run with nobody else touching the cell.
`fuel` bounds the number of iterations; `swaps` counts the compare-and-swap
operations issued so far. -/
def HighWaterMark.UpdateLoop : Nat → HighWaterMark → Int → Nat → Option UpdateOutcome
  | 0, _, _, _ => none
  | fuel + 1, hwm, current, swaps =>
    let old := LoadInt64 hwm
    if current ≤ old then
      some ⟨false, hwm, swaps⟩
    else
      match CompareAndSwapInt64 hwm old current with
      | (true, hwm') => some ⟨true, hwm', swaps + 1⟩
      | (false, hwm') => HighWaterMark.UpdateLoop fuel hwm' current (swaps + 1)

/-- `(*HighWaterMark).Update(current)` without concurrent interference. -/
def HighWaterMark.Update (fuel : Nat) (hwm : HighWaterMark) (current : Int) : Option UpdateOutcome :=
  HighWaterMark.UpdateLoop fuel hwm current 0

/-- Successive calls `Update(v1)`, ..., `Update(vN)` on one cell; the cell at the end. -/
def HighWaterMark.UpdateAll (fuel : Nat) : HighWaterMark → List Int → Option HighWaterMark
  | hwm, [] => some hwm
  | hwm, v :: vs =>
    match HighWaterMark.Update fuel hwm v with
    | none => none
    | some out => HighWaterMark.UpdateAll fuel out.hwm vs

/-- Successive calls `Update(v1)`, ..., `Update(vN)` on one cell; the booleans
the calls return, in order. -/
def HighWaterMark.UpdateResults (fuel : Nat) : HighWaterMark → List Int → Option (List Bool)
  | _, [] => some []
  | hwm, v :: vs =>
    match HighWaterMark.Update fuel hwm v with
    | none => none
    | some out =>
      match HighWaterMark.UpdateResults fuel out.hwm vs with
      | none => none
      | some rs => some (out.result :: rs)

/-! ## HighWaterMark under concurrent callers

Several calls of `Update` run against one cell. Each call advances by atomic
steps, `atomic.LoadInt64` (with the comparison `current <= old`, which touches
no shared memory) and `atomic.CompareAndSwapInt64`; a schedule says which call
takes the next step. -/

/-- Where a call of `Update` stands in its loop. -/
inductive UpdatePC where
  /-- about to run `old := atomic.LoadInt64(hwm)` -/
  | atLoad
  /-- past the test `current <= old`, about to run the compare-and-swap from `old` -/
  | atSwap (old : Int)
  /-- the call has returned `result` -/
  | returned (result : Bool)
deriving DecidableEq, Repr

/-- One call of `Update`: its argument, where it stands, and the values its
loads have observed so far, the most recent first. -/
structure UpdateCall where
  current : Int
  pc : UpdatePC
  seen : List Int
deriving DecidableEq, Repr

/-- Whether the call has returned. -/
def UpdateCall.done (c : UpdateCall) : Bool :=
  match c.pc with
  | .returned _ => true
  | _ => false

/-- The cell, the calls in flight, and the log of the swaps that took effect:
the index of the call and the value it stored, the oldest first. -/
structure UpdateSystem where
  hwm : HighWaterMark
  calls : List UpdateCall
  swapped : List (Nat × Int)
deriving DecidableEq, Repr

/-- The call with index `i` takes its next atomic step. A call that has returned,
or an index without a call, leaves the system as it is. -/
def UpdateSystem.step (s : UpdateSystem) (i : Nat) : UpdateSystem :=
  match s.calls[i]? with
  | none => s
  | some c =>
    match c.pc with
    | .atLoad =>
      let old := LoadInt64 s.hwm
      if c.current ≤ old then
        { s with calls := s.calls.set i { c with pc := .returned false, seen := old :: c.seen } }
      else
        { s with calls := s.calls.set i { c with pc := .atSwap old, seen := old :: c.seen } }
    | .atSwap old =>
      match CompareAndSwapInt64 s.hwm old c.current with
      | (true, hwm') =>
        { hwm := hwm'
          calls := s.calls.set i { c with pc := .returned true }
          swapped := s.swapped ++ [(i, c.current)] }
      | (false, hwm') =>
        { s with hwm := hwm', calls := s.calls.set i { c with pc := .atLoad } }
    | .returned _ => s

/-- The system after the steps of a schedule. -/
def UpdateSystem.run (s : UpdateSystem) (sched : List Nat) : UpdateSystem :=
  sched.foldl UpdateSystem.step s

/-- The cell holds `init` and the calls `Update(v1)`, ..., `Update(vN)` have
been entered, none has taken a step yet. -/
def UpdateSystem.start (init : Int) (vs : List Int) : UpdateSystem :=
  { hwm := init, calls := vs.map (fun v => ⟨v, .atLoad, []⟩), swapped := [] }

/-- What holds of a call in every reachable state, given the cell `hwm`: the
values it observed are values the cell can take, none above the cell, each
observation larger than the one before; a call about to load has only seen
values below the cell, a call about to swap has just seen `old`, below its
candidate, and a call that has returned leaves a cell not below its candidate. -/
def UpdateCall.Ok (init : Int) (vs : List Int) (hwm : Int) (c : UpdateCall) : Prop :=
  (∀ x ∈ c.seen, x ≤ hwm) ∧ (∀ x ∈ c.seen, x ∈ init :: vs) ∧
    c.seen.Pairwise (fun a b => b < a) ∧
    match c.pc with
    | .atLoad => ∀ x ∈ c.seen, x < hwm
    | .atSwap old => old < c.current ∧ ∃ rest, c.seen = old :: rest
    | .returned _ => c.current ≤ hwm

/-- The invariant of the concurrent system started from `init` with the
candidates `vs`. -/
structure UpdateSystem.Inv (init : Int) (vs : List Int) (s : UpdateSystem) : Prop where
  map_current : s.calls.map UpdateCall.current = vs
  init_le : init ≤ s.hwm
  hwm_mem : s.hwm ∈ init :: vs
  calls_ok : ∀ c ∈ s.calls, c.Ok init vs s.hwm
  log_sorted : (s.swapped.map Prod.snd).Pairwise (fun a b => a < b)
  log_le : ∀ p ∈ s.swapped, p.2 ≤ s.hwm
  log_iff : ∀ (i : Nat) (v : Int), (i, v) ∈ s.swapped ↔
    ∃ c, s.calls[i]? = some c ∧ c.current = v ∧ c.pc = .returned true

/-- The number `k` of steps a call has been given agrees with where it stands:
a call that has not returned has used two steps for every completed iteration
and one for the load of the iteration under way. -/
def UpdateCall.StepsTaken (k : Nat) (c : UpdateCall) : Prop :=
  match c.pc with
  | .atLoad => k = 2 * c.seen.length
  | .atSwap _ => k + 1 = 2 * c.seen.length
  | .returned _ => True

/-! ## Update functions and trigger hooks -/

/-- Modelled from the spec: the type `ResponseMeta` is declared outside the
listed sources. The spec describes it as the read-side metadata of a fetched
object, "at minimum its ResourceVersion". -/
structure ResponseMeta where
  ResourceVersion : Nat
deriving DecidableEq, Repr

/-- Modelled from the spec: the type `MatchValue` is declared outside the listed
sources. The spec describes it as a (label, value) pair derived from a stored
object. -/
structure MatchValue where
  IndexName : String
  Value : String
deriving DecidableEq, Repr

/-- `type SimpleUpdateFunc func(runtime.Object) (runtime.Object, error)`, with
`ε` the type of the errors the transform can report. -/
abbrev SimpleUpdateFunc (ε : Type) := Object → Object × Option ε

/-- The type `UpdateFunc`, as `SimpleUpdate` builds it:
`func(runtime.Object, ResponseMeta) (runtime.Object, *uint64, error)`. The
`*uint64` is the TTL, `none` standing for the `nil` pointer. -/
abbrev UpdateFunc (ε : Type) := Object → ResponseMeta → Object × Option Nat × Option ε

/-- `SimpleUpdate(fn)`: converts a `SimpleUpdateFunc` into an `UpdateFunc`. -/
def SimpleUpdate {ε : Type} (fn : SimpleUpdateFunc ε) : UpdateFunc ε :=
  fun input _ =>
    match fn input with
    | (out, err) => (out, none, err)

/-- `EverythingFunc(runtime.Object) bool`. -/
def EverythingFunc (_ : Object) : Bool := true

/-- `NoTriggerFunc() []MatchValue`: returns the `nil` slice. -/
def NoTriggerFunc (_ : Unit) : List MatchValue := []

/-- `NoTriggerPublisher(runtime.Object) []MatchValue`: returns the `nil` slice. -/
def NoTriggerPublisher (_ : Object) : List MatchValue := []

/-! ## GuardedUpdate (specification side)

The guarded update and the backend it writes to are not among the listed
sources; the definitions of this section follow section 4.4 of the
specification. One key is considered, the one the racing callers share. -/

/-- Modelled from the spec: the type `StoredObject` of the storage layer, which
is not among the listed sources: "an opaque payload plus a ResourceVersion
(monotonically increasing per-key counter assigned by the backend) and an
optional TTL". -/
structure StoredObject (α : Type) where
  payload : α
  ResourceVersion : Nat
  TTL : Option Nat
deriving DecidableEq, Repr

/-- Modelled from the spec: the ResourceVersion the backend (not among the
listed sources) holds for the key; an absent key has version 0. -/
def currentVersion {α : Type} (backend : Option (StoredObject α)) : Nat :=
  match backend with
  | none => 0
  | some obj => obj.ResourceVersion

/-- Modelled from the spec: the failures of a guarded update (the function is
not among the listed sources) that arise before any write: `NotFound`, and an
error of the transform, which is passed on unchanged. -/
inductive GuardedError (ε : Type) where
  | NotFound
  | transform (err : ε)
deriving DecidableEq, Repr

/-- Modelled from the spec: where a call of the guarded update (not among the
listed sources) stands: about to read the key (step 2), about to attempt the
conditional write against the version it observed (step 6), or finished. -/
inductive GuardedPC (α ε : Type) where
  | atRead
  | atWrite (seen : Nat) (new : α) (ttl : Option Nat)
  | finished (result : Except (GuardedError ε) (StoredObject α))

/-- Modelled from the spec: one call `GuardedUpdate(identity, transform,
ignoreNotFound)` of the guarded update (not among the listed sources), with the
record of the states its transform was invoked on (object and version, the
most recent first) and the number of conflicts it met. -/
structure GuardedCall (α ε : Type) where
  transform : Option α → ResponseMeta → Except ε (α × Option Nat)
  ignoreNotFound : Bool
  pc : GuardedPC α ε
  invoked : List (Option α × Nat)
  conflicts : Nat

/-- Modelled from the spec: the backend entry of the key (the backend is not
among the listed sources), the calls racing on it, and the log of the
conditional writes that succeeded: the index of the call and the
ResourceVersion the write was conditioned on, the oldest first. -/
structure GuardedSystem (α ε : Type) where
  backend : Option (StoredObject α)
  calls : List (GuardedCall α ε)
  writes : List (Nat × Nat)

/-- Modelled from the spec: one backend round trip of the call with index `i`
of the guarded update (not among the listed sources), after section 4.4.
At `atRead` the call reads the current object (step 2), fails with `NotFound`
if it is absent and not tolerated (step 3), invokes the transform (step 4) and
either propagates its error (step 5) or goes on to write. At `atWrite` the
conditional write succeeds only if the version of the key still equals the one
observed (step 6), the object then getting a fresh version; on a conflict the
call restarts from the read (step 7). -/
def GuardedSystem.step {α ε : Type} (s : GuardedSystem α ε) (i : Nat) : GuardedSystem α ε :=
  match s.calls[i]? with
  | none => s
  | some c =>
    match c.pc with
    | .atRead =>
      if s.backend.isNone && !c.ignoreNotFound then
        { s with calls := s.calls.set i { c with pc := .finished (.error .NotFound) } }
      else
        let rv := currentVersion s.backend
        let input := s.backend.map (fun obj => obj.payload)
        match c.transform input ⟨rv⟩ with
        | .error e =>
          { s with
            calls := s.calls.set i { c with pc := .finished (.error (.transform e)), invoked := (input, rv) :: c.invoked } }
        | .ok (new, ttl) =>
          { s with
            calls := s.calls.set i { c with pc := .atWrite rv new ttl, invoked := (input, rv) :: c.invoked } }
    | .atWrite seen new ttl =>
      if currentVersion s.backend = seen then
        { backend := some ⟨new, seen + 1, ttl⟩
          calls := s.calls.set i { c with pc := .finished (.ok ⟨new, seen + 1, ttl⟩) }
          writes := s.writes ++ [(i, seen)] }
      else
        { s with calls := s.calls.set i { c with pc := .atRead, conflicts := c.conflicts + 1 } }
    | .finished _ => s

/-- Modelled from the spec: the racing calls of the guarded update (not among
the listed sources) after the steps of a schedule. -/
def GuardedSystem.run {α ε : Type} (s : GuardedSystem α ε) (sched : List Nat) :
    GuardedSystem α ε :=
  sched.foldl GuardedSystem.step s

/-- Modelled from the spec: the calls of the guarded update (not among the
listed sources) have been entered with their transforms and `ignoreNotFound`
flags, none has taken a step yet. -/
def GuardedSystem.start {α ε : Type} (backend : Option (StoredObject α))
    (callers : List ((Option α → ResponseMeta → Except ε (α × Option Nat)) × Bool)) :
    GuardedSystem α ε :=
  { backend := backend
    calls := callers.map (fun p => ⟨p.1, p.2, .atRead, [], 0⟩)
    writes := [] }

/-- The number of invocations of the transform agrees with the conflicts met:
a call that is about to write, or has written, has invoked its transform once
more than it met conflicts. -/
def GuardedCall.Counted {α ε : Type} (c : GuardedCall α ε) : Prop :=
  match c.pc with
  | .atRead => c.invoked.length = c.conflicts
  | .atWrite _ _ _ => c.invoked.length = c.conflicts + 1
  | .finished (.ok _) => c.invoked.length = c.conflicts + 1
  | .finished (.error _) => True

/-- The invariant of the racing guarded updates. -/
structure GuardedSystem.Inv {α ε : Type} (s : GuardedSystem α ε) : Prop where
  counted : ∀ c ∈ s.calls, c.Counted
  log_sorted : (s.writes.map Prod.snd).Pairwise (fun a b => a < b)
  log_lt : ∀ p ∈ s.writes, p.2 < currentVersion s.backend

/-! ## Storage backend configuration (`storagebackend/config.go`) -/

/-- `time.Nanosecond` of the Go standard library: a `time.Duration` counts nanoseconds. -/
def time.Nanosecond : Int := 1

/-- `time.Microsecond`. -/
def time.Microsecond : Int := 1000 * time.Nanosecond

/-- `time.Millisecond`. -/
def time.Millisecond : Int := 1000 * time.Microsecond

/-- `time.Second`. -/
def time.Second : Int := 1000 * time.Millisecond

/-- `time.Minute`. -/
def time.Minute : Int := 60 * time.Second

/-- `time.Hour`. -/
def time.Hour : Int := 60 * time.Minute

/-- `StorageTypeUnset = ""`. -/
def storagebackend.StorageTypeUnset : String := ""

/-- `StorageTypeETCD3 = "etcd3"`. -/
def storagebackend.StorageTypeETCD3 : String := "etcd3"

/-- `DefaultCompactInterval = 12 * time.Hour`. -/
def storagebackend.DefaultCompactInterval : Int := 12 * time.Hour

/-- `type Config struct`: the configuration for creating a storage backend.
`κ` is the type of the values of the interface `runtime.Codec` (nil included),
`τ` the type of the non-nil values of the interface `value.Transformer`, `none`
standing for nil. The two durations are `int64` counts of nanoseconds. The
field `StorageType` is the field `Type` of the Go struct. -/
structure storagebackend.Config (κ τ : Type) where
  StorageType : String
  Prefix : String
  ServerList : List String
  KeyFile : String
  CertFile : String
  CAFile : String
  Paging : Bool
  Codec : κ
  Transformer : Option τ
  CompactionInterval : Int
  CountMetricPollPeriod : Int
deriving DecidableEq, Repr

/-- `NewDefaultConfig(prefix, codec)`: the composite literal names three fields,
the fields it does not name get the zero value of their type. -/
def storagebackend.NewDefaultConfig {κ τ : Type} (pfx : String) (codec : κ) :
    storagebackend.Config κ τ :=
  { StorageType := ""
    Prefix := pfx
    ServerList := []
    KeyFile := ""
    CertFile := ""
    CAFile := ""
    Paging := false
    Codec := codec
    Transformer := none
    CompactionInterval := storagebackend.DefaultCompactInterval
    CountMetricPollPeriod := 0 }

/-! ## Typed networking client (`typed/argus/networking/v1/argus_networking_client.go`) -/

/-- `schema.GroupVersion`: an API group and a version. -/
structure GroupVersion where
  Group : String
  Version : String
deriving DecidableEq, Repr

/-- The fields of `rest.Config` that `setConfigDefaults` reads or writes, and,
in `other`, all the remaining fields of the struct (type `ρ`). `σ` is the type
of the non-nil values of `NegotiatedSerializer`; `none` stands for a nil
pointer or interface. The declaration of `rest.Config` is outside the listed
sources. -/
structure RestConfig (σ ρ : Type) where
  APIPath : String
  GroupVersion : Option GroupVersion
  NegotiatedSerializer : Option σ
  UserAgent : String
  other : ρ
deriving DecidableEq, Repr

/-- The values `setConfigDefaults` takes from other packages, which are outside
the listed sources: `v1.SchemeGroupVersion` of `k8s.io/api/networking/v1`, the
serializer `serializer.DirectCodecFactory{CodecFactory: scheme.Codecs}`, and
the string `rest.DefaultKubernetesUserAgent()` returns. -/
structure ClientEnv (σ : Type) where
  SchemeGroupVersion : GroupVersion
  DirectCodecFactory : σ
  DefaultKubernetesUserAgent : String

/-- `setConfigDefaults(config)`: the config as the function leaves it, and the
error it returns (`none` for nil). -/
def setConfigDefaults {σ ρ ε : Type} (env : ClientEnv σ) (config : RestConfig σ ρ) :
    RestConfig σ ρ × Option ε :=
  let gv := env.SchemeGroupVersion
  let config := { config with GroupVersion := some gv }
  let config := { config with APIPath := "/apis" }
  let config := { config with NegotiatedSerializer := some env.DirectCodecFactory }
  let config :=
    if config.UserAgent = "" then
      { config with UserAgent := env.DefaultKubernetesUserAgent }
    else config
  (config, none)

/-- `type ArgusNetworkingV1Client struct { restClient rest.Interface }`, with `γ`
the type of REST clients. -/
structure ArgusNetworkingV1Client (γ : Type) where
  restClient : γ
deriving DecidableEq, Repr

/-- `NewForConfig(c)`: the function copies `*c` into the local `config`, applies
`setConfigDefaults` to the copy and hands the copy to `rest.RESTClientFor`
(outside the listed sources, a parameter here). The result is the client or
the error, together with the value `*c` holds when the function returns. -/
def NewForConfig {σ ρ ε γ : Type} (env : ClientEnv σ)
    (RESTClientFor : RestConfig σ ρ → Except ε γ) (c : RestConfig σ ρ) :
    Except ε (ArgusNetworkingV1Client γ) × RestConfig σ ρ :=
  let config := c
  match setConfigDefaults env config with
  | (_, some err) => (.error err, c)
  | (config, none) =>
    match RESTClientFor config with
    | .error err => (.error err, c)
    | .ok client => (.ok ⟨client⟩, c)

/-! ## Auxiliary facts -/

/-- A one-character text occurs in a text exactly when the character is in it. -/
theorem containsChars_singleton (c : Char) (l : List Char) :
    containsChars [c] l = true ↔ c ∈ l := by
  induction l with
  | nil => simp [containsChars]
  | cons x xs ih =>
    simp only [containsChars, List.isPrefixOf, Bool.or_eq_true, Bool.and_eq_true, beq_iff_eq,
      List.mem_cons, ih]
    constructor
    · rintro (⟨h, -⟩ | h)
      · exact Or.inl h
      · exact Or.inr h
    · rintro (h | h)
      · exact Or.inl ⟨h, trivial⟩
      · exact Or.inr h

/-- `strings.Contains(name, "/")` holds exactly when `/` is a character of the name. -/
theorem Contains_slash (name : String) : Contains name "/" = true ↔ '/' ∈ name.data :=
  containsChars_singleton '/' name.data

/-- `strings.Contains(name, "%")` holds exactly when `%` is a character of the name. -/
theorem Contains_percent (name : String) : Contains name "%" = true ↔ '%' ∈ name.data :=
  containsChars_singleton '%' name.data

/-- A name the validator lets through has none of the four defects. -/
theorem IsValidPathSegmentName_eq_nil_iff (name : String) :
    IsValidPathSegmentName name = [] ↔
      name ≠ "." ∧ name ≠ ".." ∧ '%' ∉ name.data ∧ '/' ∉ name.data := by
  unfold IsValidPathSegmentName NameMayNotBe NameMayNotContain
  by_cases h1 : name = "."
  · simp [h1, List.find?]
  by_cases h2 : name = ".."
  · simp [h2, List.find?]
  rw [← Contains_slash name, ← Contains_percent name]
  cases hcs : Contains name "/" <;> cases hcp : Contains name "%" <;>
    simp [List.find?, List.filter, h1, h2, hcs, hcp]

/-- `NamespaceKeyFunc` on an object with metadata whose name is valid. -/
theorem NamespaceKeyFunc_of_valid (pfx : String) (m : ObjectMeta)
    (hv : IsValidPathSegmentName m.Name = []) :
    NamespaceKeyFunc pfx (.withMeta m)
      = (pfx ++ "/" ++ m.AccountID ++ "/" ++ m.Namespace ++ "/" ++ m.Name, none) := by
  simp [NamespaceKeyFunc, Accessor, hv]

/-- `NoNamespaceKeyFunc` on an object with metadata whose name is valid. -/
theorem NoNamespaceKeyFunc_of_valid (pfx : String) (m : ObjectMeta)
    (hv : IsValidPathSegmentName m.Name = []) :
    NoNamespaceKeyFunc pfx (.withMeta m)
      = (pfx ++ "/" ++ m.AccountID ++ "/" ++ m.Name, none) := by
  simp [NoNamespaceKeyFunc, Accessor, hv]

/-- `NamespaceKeyFunc` on an object with metadata whose name is rejected. -/
theorem NamespaceKeyFunc_of_invalid (pfx : String) (m : ObjectMeta)
    (hv : IsValidPathSegmentName m.Name ≠ []) :
    NamespaceKeyFunc pfx (.withMeta m)
      = ("", some (.invalidName (IsValidPathSegmentName m.Name))) := by
  simp [NamespaceKeyFunc, Accessor, hv]

/-- `NoNamespaceKeyFunc` on an object with metadata whose name is rejected. -/
theorem NoNamespaceKeyFunc_of_invalid (pfx : String) (m : ObjectMeta)
    (hv : IsValidPathSegmentName m.Name ≠ []) :
    NoNamespaceKeyFunc pfx (.withMeta m)
      = ("", some (.invalidName (IsValidPathSegmentName m.Name))) := by
  simp [NoNamespaceKeyFunc, Accessor, hv]

/-- A successful `NamespaceKeyFunc` call: the object has metadata, its name is
valid, and the key is the four-part concatenation. -/
theorem NamespaceKeyFunc_ok_iff (pfx : String) (obj : Object) (k : String) :
    NamespaceKeyFunc pfx obj = (k, none) ↔
      ∃ m, obj = .withMeta m ∧ IsValidPathSegmentName m.Name = [] ∧
        k = pfx ++ "/" ++ m.AccountID ++ "/" ++ m.Namespace ++ "/" ++ m.Name := by
  cases obj with
  | withoutMeta => simp [NamespaceKeyFunc, Accessor]
  | withMeta m =>
    by_cases hv : IsValidPathSegmentName m.Name = []
    · rw [NamespaceKeyFunc_of_valid pfx m hv]
      constructor
      · intro h
        exact ⟨m, rfl, hv, (Prod.mk.inj h).1.symm⟩
      · rintro ⟨m', hm, -, hk⟩
        cases hm
        rw [hk]
    · rw [NamespaceKeyFunc_of_invalid pfx m hv]
      constructor
      · intro h
        simp at h
      · rintro ⟨m', hm, hv', -⟩
        cases hm
        exact absurd hv' hv

/-- A successful `NoNamespaceKeyFunc` call: the object has metadata, its name
is valid, and the key is the three-part concatenation. -/
theorem NoNamespaceKeyFunc_ok_iff (pfx : String) (obj : Object) (k : String) :
    NoNamespaceKeyFunc pfx obj = (k, none) ↔
      ∃ m, obj = .withMeta m ∧ IsValidPathSegmentName m.Name = [] ∧
        k = pfx ++ "/" ++ m.AccountID ++ "/" ++ m.Name := by
  cases obj with
  | withoutMeta => simp [NoNamespaceKeyFunc, Accessor]
  | withMeta m =>
    by_cases hv : IsValidPathSegmentName m.Name = []
    · rw [NoNamespaceKeyFunc_of_valid pfx m hv]
      constructor
      · intro h
        exact ⟨m, rfl, hv, (Prod.mk.inj h).1.symm⟩
      · rintro ⟨m', hm, -, hk⟩
        cases hm
        rw [hk]
    · rw [NoNamespaceKeyFunc_of_invalid pfx m hv]
      constructor
      · intro h
        simp at h
      · rintro ⟨m', hm, hv', -⟩
        cases hm
        exact absurd hv' hv

/-- Cutting at the last occurrence of a separator is unambiguous. -/
theorem append_sep_inj_of_not_mem_right {c : Char} (a a' b b' : List Char)
    (hb : c ∉ b) (hb' : c ∉ b') (h : a ++ c :: b = a' ++ c :: b') : a = a' ∧ b = b' := by
  induction a generalizing a' with
  | nil =>
    cases a' with
    | nil => exact ⟨rfl, by simpa using h⟩
    | cons y ys =>
      simp only [List.nil_append, List.cons_append, List.cons.injEq] at h
      exact absurd (by rw [h.2]; simp) hb
  | cons x xs ih =>
    cases a' with
    | nil =>
      simp only [List.nil_append, List.cons_append, List.cons.injEq] at h
      exact absurd (by rw [← h.2]; simp) hb'
    | cons y ys =>
      simp only [List.cons_append, List.cons.injEq] at h
      obtain ⟨h1, h2⟩ := ih ys h.2
      exact ⟨by rw [h.1, h1], h2⟩

/-- Cutting at the first occurrence of a separator is unambiguous. -/
theorem append_sep_inj_of_not_mem_left {c : Char} (a a' b b' : List Char)
    (ha : c ∉ a) (ha' : c ∉ a') (h : a ++ c :: b = a' ++ c :: b') : a = a' ∧ b = b' := by
  induction a generalizing a' with
  | nil =>
    cases a' with
    | nil => exact ⟨rfl, by simpa using h⟩
    | cons y ys =>
      simp only [List.nil_append, List.cons_append, List.cons.injEq] at h
      exact absurd (by rw [h.1]; simp) ha'
  | cons x xs ih =>
    cases a' with
    | nil =>
      simp only [List.nil_append, List.cons_append, List.cons.injEq] at h
      exact absurd (by rw [← h.1]; simp) ha
    | cons y ys =>
      simp only [List.cons_append, List.cons.injEq] at h
      have hx : c ∉ xs := fun hc => ha (List.mem_cons_of_mem _ hc)
      have hy : c ∉ ys := fun hc => ha' (List.mem_cons_of_mem _ hc)
      obtain ⟨h1, h2⟩ := ih ys hx hy h.2
      exact ⟨by rw [h.1, h1], h2⟩

/-- A text without `/` is a single segment. -/
theorem splitSlash_of_not_mem (a : List Char) (ha : '/' ∉ a) : splitSlash a = [a] := by
  induction a with
  | nil => rfl
  | cons x xs ih =>
    have hx : x ≠ '/' := fun h => ha (by rw [h]; simp)
    have hxs : '/' ∉ xs := fun hc => ha (List.mem_cons_of_mem _ hc)
    simp [splitSlash, hx, ih hxs]

/-- The first segment of a text ends at its first `/`. -/
theorem splitSlash_append (a b : List Char) (ha : '/' ∉ a) :
    splitSlash (a ++ '/' :: b) = a :: splitSlash b := by
  induction a with
  | nil => simp [splitSlash]
  | cons x xs ih =>
    have hx : x ≠ '/' := fun h => ha (by rw [h]; simp)
    have hxs : '/' ∉ xs := fun hc => ha (List.mem_cons_of_mem _ hc)
    simp [splitSlash, hx, ih hxs]

/-- Dropping a prefix and the separator behind it leaves the rest. -/
theorem drop_length_succ_append (p r : List Char) (c : Char) :
    (p ++ c :: r).drop (p.length + 1) = r := by
  induction p with
  | nil => rfl
  | cons x xs ih => simp

/-- Two strings with the same characters are the same string. -/
theorem string_eq_of_data_eq {s t : String} (h : s.data = t.data) : s = t := by
  cases s; cases t; simp_all

/-- The characters of a namespaced key. -/
theorem namespaced_key_data (pfx a n x : String) :
    (pfx ++ "/" ++ a ++ "/" ++ n ++ "/" ++ x).data
      = pfx.data ++ '/' :: (a.data ++ '/' :: (n.data ++ '/' :: x.data)) := by
  simp [String.data_append]

/-- The characters of a key without namespace. -/
theorem cluster_key_data (pfx a x : String) :
    (pfx ++ "/" ++ a ++ "/" ++ x).data = pfx.data ++ '/' :: (a.data ++ '/' :: x.data) := by
  simp [String.data_append]

/-- Decoding a key `prefix + "/" + rest` splits `rest`. -/
theorem decodeKey_data (pfx key : String) (rest : List Char)
    (h : key.data = pfx.data ++ '/' :: rest) :
    decodeKey pfx key = (splitSlash rest).map String.mk := by
  have hl : pfx.length = pfx.data.length := by cases pfx; rfl
  unfold decodeKey
  rw [h, hl, drop_length_succ_append]

/-! ## Key functions: results on valid and invalid names -/

/-- C1: for every prefix and every object whose name passes path-segment
validation, `NamespaceKeyFunc` returns a nil error and exactly the key
`prefix + "/" + accountID + "/" + namespace + "/" + name`; character by
character the key is the prefix, a slash, the account ID, a slash, the
namespace, a slash and the name, in this order. -/
theorem NamespaceKeyFunc_valid_name (pfx : String) (obj : Object) (m : ObjectMeta)
    (hobj : Accessor obj = .ok m) (hname : IsValidPathSegmentName m.Name = []) :
    NamespaceKeyFunc pfx obj
        = (pfx ++ "/" ++ m.AccountID ++ "/" ++ m.Namespace ++ "/" ++ m.Name, none) ∧
      (NamespaceKeyFunc pfx obj).1.data
        = pfx.data ++ '/' :: (m.AccountID.data ++ '/' :: (m.Namespace.data ++ '/' :: m.Name.data)) := by
  cases obj with
  | withoutMeta => simp [Accessor] at hobj
  | withMeta m' =>
    simp only [Accessor, Except.ok.injEq] at hobj
    subst hobj
    rw [NamespaceKeyFunc_of_valid pfx m' hname]
    refine ⟨rfl, ?_⟩
    simp [String.data_append]

/-- Witness of C1 on the pod `web` of namespace `default`, account `t1`. -/
theorem NamespaceKeyFunc_valid_name_witness :
    NamespaceKeyFunc "/registry/pods" (.withMeta ⟨"web", "default", "t1"⟩)
        = ("/registry/pods" ++ "/" ++ "t1" ++ "/" ++ "default" ++ "/" ++ "web", none) ∧
      (NamespaceKeyFunc "/registry/pods" (.withMeta ⟨"web", "default", "t1"⟩)).1.data
        = "/registry/pods".data ++ '/' :: ("t1".data ++ '/' :: ("default".data ++ '/' :: "web".data)) :=
  NamespaceKeyFunc_valid_name "/registry/pods" (.withMeta ⟨"web", "default", "t1"⟩)
    ⟨"web", "default", "t1"⟩ rfl (by decide)

/-- C2: for every prefix and every object whose name passes path-segment
validation, `NoNamespaceKeyFunc` returns a nil error and exactly the key
`prefix + "/" + accountID + "/" + name`. -/
theorem NoNamespaceKeyFunc_valid_name (pfx : String) (obj : Object) (m : ObjectMeta)
    (hobj : Accessor obj = .ok m) (hname : IsValidPathSegmentName m.Name = []) :
    NoNamespaceKeyFunc pfx obj = (pfx ++ "/" ++ m.AccountID ++ "/" ++ m.Name, none) ∧
      (NoNamespaceKeyFunc pfx obj).1.data
        = pfx.data ++ '/' :: (m.AccountID.data ++ '/' :: m.Name.data) := by
  cases obj with
  | withoutMeta => simp [Accessor] at hobj
  | withMeta m' =>
    simp only [Accessor, Except.ok.injEq] at hobj
    subst hobj
    rw [NoNamespaceKeyFunc_of_valid pfx m' hname]
    refine ⟨rfl, ?_⟩
    simp [String.data_append]

/-- Witness of C2 on the node `n1` of account `t1`. -/
theorem NoNamespaceKeyFunc_valid_name_witness :
    NoNamespaceKeyFunc "/registry/nodes" (.withMeta ⟨"n1", "", "t1"⟩)
        = ("/registry/nodes" ++ "/" ++ "t1" ++ "/" ++ "n1", none) ∧
      (NoNamespaceKeyFunc "/registry/nodes" (.withMeta ⟨"n1", "", "t1"⟩)).1.data
        = "/registry/nodes".data ++ '/' :: ("t1".data ++ '/' :: "n1".data) :=
  NoNamespaceKeyFunc_valid_name "/registry/nodes" (.withMeta ⟨"n1", "", "t1"⟩)
    ⟨"n1", "", "t1"⟩ rfl (by decide)

/-- C3: for every object whose name contains `/` or equals `.` or `..`, and
for every prefix, account ID and namespace, both key functions fail: each
returns the empty string as key together with a non-nil error, namely the
invalid-name error carrying the validator's (non-empty) list of complaints. -/
theorem keyFuncs_reject_slash_and_dots (pfx : String) (m : ObjectMeta)
    (hname : '/' ∈ m.Name.data ∨ m.Name = "." ∨ m.Name = "..") :
    ∃ msgs : List String, msgs ≠ [] ∧
      NamespaceKeyFunc pfx (.withMeta m) = ("", some (.invalidName msgs)) ∧
      NoNamespaceKeyFunc pfx (.withMeta m) = ("", some (.invalidName msgs)) ∧
      (NamespaceKeyFunc pfx (.withMeta m)).2 ≠ none ∧
      (NoNamespaceKeyFunc pfx (.withMeta m)).2 ≠ none := by
  have hv : IsValidPathSegmentName m.Name ≠ [] := by
    intro h
    have h' := (IsValidPathSegmentName_eq_nil_iff m.Name).1 h
    rcases hname with hs | hd | hdd
    · exact h'.2.2.2 hs
    · exact h'.1 hd
    · exact h'.2.1 hdd
  refine ⟨IsValidPathSegmentName m.Name, hv, NamespaceKeyFunc_of_invalid pfx m hv,
    NoNamespaceKeyFunc_of_invalid pfx m hv, ?_, ?_⟩
  · rw [NamespaceKeyFunc_of_invalid pfx m hv]; simp
  · rw [NoNamespaceKeyFunc_of_invalid pfx m hv]; simp

/-- Witness of C3 on the name `a/b`. -/
theorem keyFuncs_reject_slash_and_dots_witness :
    ∃ msgs : List String, msgs ≠ [] ∧
      NamespaceKeyFunc "/registry/pods" (.withMeta ⟨"a/b", "default", "t1"⟩)
        = ("", some (.invalidName msgs)) ∧
      NoNamespaceKeyFunc "/registry/pods" (.withMeta ⟨"a/b", "default", "t1"⟩)
        = ("", some (.invalidName msgs)) ∧
      (NamespaceKeyFunc "/registry/pods" (.withMeta ⟨"a/b", "default", "t1"⟩)).2 ≠ none ∧
      (NoNamespaceKeyFunc "/registry/pods" (.withMeta ⟨"a/b", "default", "t1"⟩)).2 ≠ none :=
  keyFuncs_reject_slash_and_dots "/registry/pods" ⟨"a/b", "default", "t1"⟩ (Or.inl (by decide))

/-- C4, as stated, fails: the empty name passes path-segment validation, and
both key functions return a key with a nil error for an object whose name is
the empty string. -/
theorem keyFuncs_empty_name_key :
    IsValidPathSegmentName "" = [] ∧
      NamespaceKeyFunc "/registry/pods" (.withMeta ⟨"", "default", "t1"⟩)
        = ("/registry/pods/t1/default/", none) ∧
      NoNamespaceKeyFunc "/registry/nodes" (.withMeta ⟨"", "", "t1"⟩)
        = ("/registry/nodes/t1/", none) := by
  decide

/-- C4 (amended): for an object whose name is the empty string, both key
functions succeed: the empty name passes path-segment validation, and the key
returned, with a nil error, is `prefix + "/" + accountID + "/" + namespace + "/"`
for `NamespaceKeyFunc` and `prefix + "/" + accountID + "/"` for
`NoNamespaceKeyFunc`, whatever the prefix, the account ID and the namespace. -/
theorem keyFuncs_accept_empty_name (pfx : String) (m : ObjectMeta) (hname : m.Name = "") :
    IsValidPathSegmentName m.Name = [] ∧
      NamespaceKeyFunc pfx (.withMeta m)
        = (pfx ++ "/" ++ m.AccountID ++ "/" ++ m.Namespace ++ "/", none) ∧
      NoNamespaceKeyFunc pfx (.withMeta m) = (pfx ++ "/" ++ m.AccountID ++ "/", none) := by
  have hv : IsValidPathSegmentName m.Name = [] := by
    rw [IsValidPathSegmentName_eq_nil_iff, hname]
    decide
  refine ⟨hv, ?_, ?_⟩
  · rw [NamespaceKeyFunc_of_valid pfx m hv, hname]
    refine Prod.ext (string_eq_of_data_eq ?_) rfl
    simp [String.data_append]
  · rw [NoNamespaceKeyFunc_of_valid pfx m hv, hname]
    refine Prod.ext (string_eq_of_data_eq ?_) rfl
    simp [String.data_append]

/-- Witness of C4 (amended) on an object of account `t1`, namespace `default`,
without a name. -/
theorem keyFuncs_accept_empty_name_witness :
    IsValidPathSegmentName (⟨"", "default", "t1"⟩ : ObjectMeta).Name = [] ∧
      NamespaceKeyFunc "/registry/pods" (.withMeta ⟨"", "default", "t1"⟩)
        = ("/registry/pods" ++ "/" ++ "t1" ++ "/" ++ "default" ++ "/", none) ∧
      NoNamespaceKeyFunc "/registry/pods" (.withMeta ⟨"", "default", "t1"⟩)
        = ("/registry/pods" ++ "/" ++ "t1" ++ "/", none) :=
  keyFuncs_accept_empty_name "/registry/pods" ⟨"", "default", "t1"⟩ rfl

/-! ## Key functions: injectivity, segments and scope -/

/-- C5, as stated, fails: two objects with valid names and different
(accountID, namespace, name) triples, `("t1/x", "ns", "web")` and
`("t1", "x/ns", "web")`, get the same key from `NamespaceKeyFunc`, and splitting
that key yields four segments, not the identity of either object. -/
theorem NamespaceKeyFunc_collision :
    NamespaceKeyFunc "/registry/pods" (.withMeta ⟨"web", "ns", "t1/x"⟩)
        = ("/registry/pods/t1/x/ns/web", none) ∧
      NamespaceKeyFunc "/registry/pods" (.withMeta ⟨"web", "x/ns", "t1"⟩)
        = ("/registry/pods/t1/x/ns/web", none) ∧
      (("t1/x", "ns", "web") : String × String × String) ≠ ("t1", "x/ns", "web") ∧
      decodeKey "/registry/pods" "/registry/pods/t1/x/ns/web" = ["t1", "x", "ns", "web"] := by
  decide

/-- C5 (amended): for a fixed prefix,
(1) whenever `NoNamespaceKeyFunc` succeeds on two objects whose
(accountID, name) pairs differ, the two keys differ;
(2) whenever `NamespaceKeyFunc` succeeds on two objects whose account IDs
contain no `/` and whose (accountID, namespace, name) triples differ, the two
keys differ;
(3) when the account ID and the namespace contain no `/`, removing
`prefix + "/"` from a key of `NamespaceKeyFunc` and splitting the rest at `/`
gives back `[accountID, namespace, name]`;
(4) when the account ID contains no `/`, the same decoding of a key of
`NoNamespaceKeyFunc` gives back `[accountID, name]`. -/
theorem key_encoding_injective (pfx : String) (m₁ m₂ : ObjectMeta) (k₁ k₂ : String) :
    (NoNamespaceKeyFunc pfx (.withMeta m₁) = (k₁, none) →
      NoNamespaceKeyFunc pfx (.withMeta m₂) = (k₂, none) →
      (m₁.AccountID, m₁.Name) ≠ (m₂.AccountID, m₂.Name) → k₁ ≠ k₂) ∧
    ('/' ∉ m₁.AccountID.data → '/' ∉ m₂.AccountID.data →
      NamespaceKeyFunc pfx (.withMeta m₁) = (k₁, none) →
      NamespaceKeyFunc pfx (.withMeta m₂) = (k₂, none) →
      (m₁.AccountID, m₁.Namespace, m₁.Name) ≠ (m₂.AccountID, m₂.Namespace, m₂.Name) →
      k₁ ≠ k₂) ∧
    ('/' ∉ m₁.AccountID.data → '/' ∉ m₁.Namespace.data →
      NamespaceKeyFunc pfx (.withMeta m₁) = (k₁, none) →
      decodeKey pfx k₁ = [m₁.AccountID, m₁.Namespace, m₁.Name]) ∧
    ('/' ∉ m₁.AccountID.data →
      NoNamespaceKeyFunc pfx (.withMeta m₁) = (k₁, none) →
      decodeKey pfx k₁ = [m₁.AccountID, m₁.Name]) := by
  refine ⟨?_, ?_, ?_, ?_⟩
  · intro h₁ h₂ hne hk
    obtain ⟨a, ha, hva, hka⟩ := (NoNamespaceKeyFunc_ok_iff pfx _ k₁).1 h₁
    obtain ⟨b, hb, hvb, hkb⟩ := (NoNamespaceKeyFunc_ok_iff pfx _ k₂).1 h₂
    cases ha; cases hb
    have hxa := ((IsValidPathSegmentName_eq_nil_iff _).1 hva).2.2.2
    have hxb := ((IsValidPathSegmentName_eq_nil_iff _).1 hvb).2.2.2
    have hd : k₁.data = k₂.data := by rw [hk]
    rw [hka, hkb, cluster_key_data, cluster_key_data] at hd
    have hd' := List.cons.inj (List.append_cancel_left hd)
    obtain ⟨e1, e2⟩ := append_sep_inj_of_not_mem_right _ _ _ _ hxa hxb hd'.2
    exact hne (by rw [string_eq_of_data_eq e1, string_eq_of_data_eq e2])
  · intro hs₁ hs₂ h₁ h₂ hne hk
    obtain ⟨a, ha, hva, hka⟩ := (NamespaceKeyFunc_ok_iff pfx _ k₁).1 h₁
    obtain ⟨b, hb, hvb, hkb⟩ := (NamespaceKeyFunc_ok_iff pfx _ k₂).1 h₂
    cases ha; cases hb
    have hxa := ((IsValidPathSegmentName_eq_nil_iff _).1 hva).2.2.2
    have hxb := ((IsValidPathSegmentName_eq_nil_iff _).1 hvb).2.2.2
    have hd : k₁.data = k₂.data := by rw [hk]
    rw [hka, hkb, namespaced_key_data, namespaced_key_data] at hd
    have hd' := List.cons.inj (List.append_cancel_left hd)
    obtain ⟨e1, e2⟩ := append_sep_inj_of_not_mem_left _ _ _ _ hs₁ hs₂ hd'.2
    obtain ⟨e3, e4⟩ := append_sep_inj_of_not_mem_right _ _ _ _ hxa hxb e2
    exact hne (by
      rw [string_eq_of_data_eq e1, string_eq_of_data_eq e3, string_eq_of_data_eq e4])
  · intro hs hn h₁
    obtain ⟨a, ha, hva, hka⟩ := (NamespaceKeyFunc_ok_iff pfx _ k₁).1 h₁
    cases ha
    have hx := ((IsValidPathSegmentName_eq_nil_iff _).1 hva).2.2.2
    rw [decodeKey_data pfx k₁ _ (by rw [hka, namespaced_key_data]),
      splitSlash_append _ _ hs, splitSlash_append _ _ hn, splitSlash_of_not_mem _ hx]
    rfl
  · intro hs h₁
    obtain ⟨a, ha, hva, hka⟩ := (NoNamespaceKeyFunc_ok_iff pfx _ k₁).1 h₁
    cases ha
    have hx := ((IsValidPathSegmentName_eq_nil_iff _).1 hva).2.2.2
    rw [decodeKey_data pfx k₁ _ (by rw [hka, cluster_key_data]),
      splitSlash_append _ _ hs, splitSlash_of_not_mem _ hx]
    rfl

/-- Witness of C5 (amended): the pods `web` of accounts `t1` and `t2` get
different keys, and the key of the first decodes to its identity. -/
theorem key_encoding_injective_witness :
    ("/registry/pods/t1/web" : String) ≠ "/registry/pods/t2/web" ∧
      ("/registry/pods/t1/default/web" : String) ≠ "/registry/pods/t2/default/web" ∧
      decodeKey "/registry/pods" "/registry/pods/t1/default/web" = ["t1", "default", "web"] ∧
      decodeKey "/registry/pods" "/registry/pods/t1/web" = ["t1", "web"] :=
  ⟨(key_encoding_injective "/registry/pods" ⟨"web", "default", "t1"⟩ ⟨"web", "default", "t2"⟩
      "/registry/pods/t1/web" "/registry/pods/t2/web").1 (by decide) (by decide) (by decide),
   (key_encoding_injective "/registry/pods" ⟨"web", "default", "t1"⟩ ⟨"web", "default", "t2"⟩
      "/registry/pods/t1/default/web" "/registry/pods/t2/default/web").2.1
      (by decide) (by decide) (by decide) (by decide) (by decide),
   (key_encoding_injective "/registry/pods" ⟨"web", "default", "t1"⟩ ⟨"web", "default", "t2"⟩
      "/registry/pods/t1/default/web" "").2.2.1 (by decide) (by decide) (by decide),
   (key_encoding_injective "/registry/pods" ⟨"web", "default", "t1"⟩ ⟨"web", "default", "t2"⟩
      "/registry/pods/t1/web" "").2.2.2 (by decide) (by decide)⟩

/-- C6, as stated, fails: both key functions return a key for an object whose
account ID `t/1` and namespace `a/b` contain the separator. -/
theorem keyFuncs_accept_slash_in_account_and_namespace :
    NamespaceKeyFunc "/registry/pods" (.withMeta ⟨"web", "a/b", "t/1"⟩)
        = ("/registry/pods/t/1/a/b/web", none) ∧
      NoNamespaceKeyFunc "/registry/nodes" (.withMeta ⟨"n1", "", "t/1"⟩)
        = ("/registry/nodes/t/1/n1", none) ∧
      '/' ∈ "t/1".data ∧ '/' ∈ "a/b".data := by
  decide

/-- C6 (amended): whenever `NamespaceKeyFunc` or `NoNamespaceKeyFunc` returns
a key successfully, the object has metadata and the name segment it
concatenated contains no `/`; the account ID and the namespace are not
checked: with that name, every account ID and every namespace is accepted and
concatenated unchanged. -/
theorem keyFuncs_name_segment_slash_free (pfx : String) (obj : Object) (k : String)
    (h : NamespaceKeyFunc pfx obj = (k, none) ∨ NoNamespaceKeyFunc pfx obj = (k, none)) :
    ∃ m, obj = .withMeta m ∧ '/' ∉ m.Name.data ∧
      ∀ acc ns : String,
        NamespaceKeyFunc pfx (.withMeta ⟨m.Name, ns, acc⟩)
          = (pfx ++ "/" ++ acc ++ "/" ++ ns ++ "/" ++ m.Name, none) ∧
        NoNamespaceKeyFunc pfx (.withMeta ⟨m.Name, ns, acc⟩)
          = (pfx ++ "/" ++ acc ++ "/" ++ m.Name, none) := by
  have key : ∀ m : ObjectMeta, IsValidPathSegmentName m.Name = [] →
      '/' ∉ m.Name.data ∧
      ∀ acc ns : String,
        NamespaceKeyFunc pfx (.withMeta ⟨m.Name, ns, acc⟩)
          = (pfx ++ "/" ++ acc ++ "/" ++ ns ++ "/" ++ m.Name, none) ∧
        NoNamespaceKeyFunc pfx (.withMeta ⟨m.Name, ns, acc⟩)
          = (pfx ++ "/" ++ acc ++ "/" ++ m.Name, none) := by
    intro m hv
    refine ⟨((IsValidPathSegmentName_eq_nil_iff _).1 hv).2.2.2, fun acc ns => ⟨?_, ?_⟩⟩
    · exact NamespaceKeyFunc_of_valid pfx ⟨m.Name, ns, acc⟩ hv
    · exact NoNamespaceKeyFunc_of_valid pfx ⟨m.Name, ns, acc⟩ hv
  rcases h with h | h
  · obtain ⟨m, hm, hv, -⟩ := (NamespaceKeyFunc_ok_iff pfx obj k).1 h
    exact ⟨m, hm, key m hv⟩
  · obtain ⟨m, hm, hv, -⟩ := (NoNamespaceKeyFunc_ok_iff pfx obj k).1 h
    exact ⟨m, hm, key m hv⟩

/-- Witness of C6 (amended) on the pod `web`. -/
theorem keyFuncs_name_segment_slash_free_witness :
    ∃ m, Object.withMeta ⟨"web", "default", "t1"⟩ = .withMeta m ∧ '/' ∉ m.Name.data ∧
      ∀ acc ns : String,
        NamespaceKeyFunc "/registry/pods" (.withMeta ⟨m.Name, ns, acc⟩)
          = ("/registry/pods" ++ "/" ++ acc ++ "/" ++ ns ++ "/" ++ m.Name, none) ∧
        NoNamespaceKeyFunc "/registry/pods" (.withMeta ⟨m.Name, ns, acc⟩)
          = ("/registry/pods" ++ "/" ++ acc ++ "/" ++ m.Name, none) :=
  keyFuncs_name_segment_slash_free "/registry/pods" (.withMeta ⟨"web", "default", "t1"⟩)
    "/registry/pods/t1/default/web" (Or.inl (by decide))

/-- C7, as stated, fails: `NamespaceKeyFunc` succeeds on an object whose
namespace is empty, and `NoNamespaceKeyFunc` succeeds on an object that carries
the namespace `kube-system`. -/
theorem keyFuncs_accept_scope_mismatch :
    NamespaceKeyFunc "/registry/pods" (.withMeta ⟨"web", "", "t1"⟩)
        = ("/registry/pods/t1//web", none) ∧
      NoNamespaceKeyFunc "/registry/nodes" (.withMeta ⟨"n1", "kube-system", "t1"⟩)
        = ("/registry/nodes/t1/n1", none) := by
  decide

/-- C7 (amended): a namespace scope mismatch is not reported. For every object
with a valid name, `NamespaceKeyFunc` succeeds also when the namespace is
empty (the key then is `prefix + "/" + accountID + "//" + name`), and
`NoNamespaceKeyFunc` succeeds whatever namespace the object carries, with a key
that does not depend on the namespace. -/
theorem keyFuncs_ignore_scope (pfx : String) (m : ObjectMeta) (ns : String)
    (hname : IsValidPathSegmentName m.Name = []) :
    NamespaceKeyFunc pfx (.withMeta { m with Namespace := "" })
        = (pfx ++ "/" ++ m.AccountID ++ "//" ++ m.Name, none) ∧
      NoNamespaceKeyFunc pfx (.withMeta { m with Namespace := ns })
        = (pfx ++ "/" ++ m.AccountID ++ "/" ++ m.Name, none) ∧
      NoNamespaceKeyFunc pfx (.withMeta { m with Namespace := ns })
        = NoNamespaceKeyFunc pfx (.withMeta m) := by
  refine ⟨?_, ?_, ?_⟩
  · rw [NamespaceKeyFunc_of_valid pfx ⟨m.Name, "", m.AccountID⟩ hname]
    refine Prod.ext (string_eq_of_data_eq ?_) rfl
    simp [String.data_append]
  · rw [NoNamespaceKeyFunc_of_valid pfx ⟨m.Name, ns, m.AccountID⟩ hname]
  · rw [NoNamespaceKeyFunc_of_valid pfx ⟨m.Name, ns, m.AccountID⟩ hname,
      NoNamespaceKeyFunc_of_valid pfx m hname]

/-- Witness of C7 (amended) on the node `n1` of account `t1`. -/
theorem keyFuncs_ignore_scope_witness :
    NamespaceKeyFunc "/registry/nodes" (.withMeta { (⟨"n1", "x", "t1"⟩ : ObjectMeta) with Namespace := "" })
        = ("/registry/nodes" ++ "/" ++ "t1" ++ "//" ++ "n1", none) ∧
      NoNamespaceKeyFunc "/registry/nodes"
          (.withMeta { (⟨"n1", "x", "t1"⟩ : ObjectMeta) with Namespace := "kube-system" })
        = ("/registry/nodes" ++ "/" ++ "t1" ++ "/" ++ "n1", none) ∧
      NoNamespaceKeyFunc "/registry/nodes"
          (.withMeta { (⟨"n1", "x", "t1"⟩ : ObjectMeta) with Namespace := "kube-system" })
        = NoNamespaceKeyFunc "/registry/nodes" (.withMeta ⟨"n1", "x", "t1"⟩) :=
  keyFuncs_ignore_scope "/registry/nodes" ⟨"n1", "x", "t1"⟩ "kube-system" (by decide)

/-! ## HighWaterMark without interference -/

/-- One iteration is enough when nobody else touches the cell: the call
returns whether the candidate is larger, leaves the larger of the two in the
cell, and issues one compare-and-swap exactly when the candidate is larger. -/
theorem HighWaterMark.Update_succ (fuel : Nat) (old c : Int) :
    HighWaterMark.Update (fuel + 1) old c
      = some ⟨decide (old < c), max old c, if old < c then 1 else 0⟩ := by
  unfold HighWaterMark.Update HighWaterMark.UpdateLoop
  by_cases h : c ≤ old
  · have h' : ¬ old < c := not_lt.mpr h
    simp [LoadInt64, h, h', max_eq_left h]
  · have h' : old < c := not_le.mp h
    simp [LoadInt64, CompareAndSwapInt64, h, h', max_eq_right (le_of_lt h')]

/-- The running maximum bounds the initial value and every candidate, and is
one of them. -/
theorem foldl_max_spec (vs : List Int) (init : Int) :
    init ≤ vs.foldl max init ∧ (∀ v ∈ vs, v ≤ vs.foldl max init) ∧
      vs.foldl max init ∈ init :: vs := by
  induction vs generalizing init with
  | nil => simp
  | cons v t ih =>
    obtain ⟨h1, h2, h3⟩ := ih (max init v)
    simp only [List.foldl_cons]
    refine ⟨le_trans (le_max_left _ _) h1, ?_, ?_⟩
    · intro x hx
      rcases List.mem_cons.1 hx with hx | hx
      · rw [hx]; exact le_trans (le_max_right _ _) h1
      · exact h2 x hx
    · rcases List.mem_cons.1 h3 with h | h
      · rcases max_choice init v with hm | hm
        · rw [h, hm]; simp
        · rw [h, hm]; simp
      · exact List.mem_cons_of_mem _ (List.mem_cons_of_mem _ h)

/-- Successive updates compute the running maximum. -/
theorem HighWaterMark.UpdateAll_succ (fuel : Nat) (init : Int) (vs : List Int) :
    HighWaterMark.UpdateAll (fuel + 1) init vs = some (vs.foldl max init) := by
  induction vs generalizing init with
  | nil => rfl
  | cons v t ih =>
    simp only [HighWaterMark.UpdateAll, HighWaterMark.Update_succ, List.foldl_cons]
    exact ih (max init v)

/-- C8: with no concurrent interference, for every stored value `old` and
every candidate `c`, `Update(c)` returns, and it returns true if and only if
`c` is strictly greater than `old`; in particular a candidate equal to the
recorded value returns false. -/
theorem HighWaterMark.Update_true_iff (fuel : Nat) (old c : Int) :
    ∃ out, HighWaterMark.Update (fuel + 1) old c = some out ∧
      (out.result = true ↔ old < c) ∧
      ∃ out', HighWaterMark.Update (fuel + 1) old old = some out' ∧ out'.result = false := by
  refine ⟨_, HighWaterMark.Update_succ fuel old c, by simp, _,
    HighWaterMark.Update_succ fuel old old, by simp⟩

/-- C9: with no concurrent interference, for every stored value `old` and
candidate `c`, `Update(c)` returns and leaves `max(old, c)` in the cell; the
cell does not decrease; and when `c` is not greater than `old` the call returns
false, the cell is unchanged and no compare-and-swap was issued. -/
theorem HighWaterMark.Update_cell (fuel : Nat) (old c : Int) :
    ∃ out, HighWaterMark.Update (fuel + 1) old c = some out ∧
      out.hwm = max old c ∧ old ≤ out.hwm ∧
      (c ≤ old → out.result = false ∧ out.hwm = old ∧ out.swaps = 0) := by
  refine ⟨_, HighWaterMark.Update_succ fuel old c, rfl, le_max_left _ _, ?_⟩
  intro h
  have h' : ¬ old < c := not_lt.mpr h
  simp [h', max_eq_left h]

/-- Witness of C9: the candidate 5 against the stored 7. -/
theorem HighWaterMark.Update_cell_witness :
    ∃ out, HighWaterMark.Update 1 7 5 = some out ∧
      out.result = false ∧ out.hwm = 7 ∧ out.swaps = 0 := by
  obtain ⟨out, h1, -, -, h4⟩ := HighWaterMark.Update_cell 0 7 5
  exact ⟨out, h1, h4 (by decide)⟩

/-- C10: for every initial value and every finite sequence of candidates
`v1..vN` applied by successive `Update` calls, all calls return and the cell
ends equal to `max(v1..vN, initial)`: the final value is at least the initial
value and every candidate, it is one of them, and any reordering of the
candidates ends in the same value. -/
theorem HighWaterMark.UpdateAll_max (fuel : Nat) (init : Int) (vs : List Int) :
    ∃ r, HighWaterMark.UpdateAll (fuel + 1) init vs = some r ∧
      r = vs.foldl max init ∧ init ≤ r ∧ (∀ v ∈ vs, v ≤ r) ∧ r ∈ init :: vs ∧
      ∀ vs' : List Int, vs'.Perm vs → HighWaterMark.UpdateAll (fuel + 1) init vs' = some r := by
  obtain ⟨h1, h2, h3⟩ := foldl_max_spec vs init
  refine ⟨_, HighWaterMark.UpdateAll_succ fuel init vs, rfl, h1, h2, h3, ?_⟩
  intro vs' hp
  rw [HighWaterMark.UpdateAll_succ]
  obtain ⟨g1, g2, g3⟩ := foldl_max_spec vs' init
  have hle : ∀ {a b : Int} {l l' : List Int}, l.Perm l' → init ≤ b → (∀ v ∈ l', v ≤ b) →
      a ∈ init :: l → a ≤ b := by
    intro a b l l' hperm hb hall ha
    rcases List.mem_cons.1 ha with ha | ha
    · rw [ha]; exact hb
    · exact hall a (hperm.mem_iff.1 ha)
  exact congrArg some (le_antisymm (hle hp h1 h2 g3) (hle hp.symm g1 g2 h3))

/-! ## Update functions and trigger hooks: properties -/

/-- C13: for every simple transform `fn`, input object and `ResponseMeta`,
`SimpleUpdate(fn)(input, meta)` returns the object of `fn(input)`, a nil TTL and
the error of `fn(input)` unchanged; the result is the same for every other
`ResponseMeta`; and when `fn` reports an error, that very error comes back
together with the object `fn` returned. -/
theorem SimpleUpdate_passes_through {ε : Type} (fn : SimpleUpdateFunc ε) (input : Object)
    (rm : ResponseMeta) :
    SimpleUpdate fn input rm = ((fn input).1, none, (fn input).2) ∧
      (∀ rm' : ResponseMeta, SimpleUpdate fn input rm' = SimpleUpdate fn input rm) ∧
      (∀ (out : Object) (e : ε), fn input = (out, some e) →
        SimpleUpdate fn input rm = (out, none, some e)) := by
  have h : ∀ r : ResponseMeta, SimpleUpdate fn input r = ((fn input).1, none, (fn input).2) := by
    intro r
    unfold SimpleUpdate
    rfl
  refine ⟨h rm, fun rm' => by rw [h rm', h rm], ?_⟩
  intro out e he
  rw [h rm, he]

/-- C14: `EverythingFunc` returns true for every object, the object without
metadata (a nil object) included. -/
theorem EverythingFunc_always_true (obj : Object) :
    EverythingFunc obj = true ∧ EverythingFunc Object.withoutMeta = true :=
  ⟨rfl, rfl⟩

/-- C15: the no-trigger policy yields no `MatchValue`: `NoTriggerPublisher`
returns an empty sequence, of length 0, for every object, and `NoTriggerFunc`
returns an empty sequence. -/
theorem NoTrigger_yields_nothing (obj : Object) :
    NoTriggerPublisher obj = [] ∧ (NoTriggerPublisher obj).length = 0 ∧
      NoTriggerFunc () = [] ∧ (NoTriggerFunc ()).length = 0 :=
  ⟨rfl, rfl, rfl, rfl⟩

/-! ## Key functions: range-scan prefixes and reversibility -/

/-- C17: every key returned successfully by `NamespaceKeyFunc` is the range-scan
prefix `prefix + "/" + accountID + "/" + namespace + "/"` followed by the name
of the object: the key starts with that prefix and what remains behind it is
exactly the name. Likewise every key returned by `NoNamespaceKeyFunc` is
`prefix + "/" + accountID + "/"` followed by the name. -/
theorem keys_extend_scan_range (pfx : String) (obj : Object) (k : String) :
    (NamespaceKeyFunc pfx obj = (k, none) →
      ∃ m, obj = .withMeta m ∧
        k = (pfx ++ "/" ++ m.AccountID ++ "/" ++ m.Namespace ++ "/") ++ m.Name ∧
        (pfx ++ "/" ++ m.AccountID ++ "/" ++ m.Namespace ++ "/").data <+: k.data ∧
        k.data.drop (pfx ++ "/" ++ m.AccountID ++ "/" ++ m.Namespace ++ "/").data.length
          = m.Name.data) ∧
    (NoNamespaceKeyFunc pfx obj = (k, none) →
      ∃ m, obj = .withMeta m ∧
        k = (pfx ++ "/" ++ m.AccountID ++ "/") ++ m.Name ∧
        (pfx ++ "/" ++ m.AccountID ++ "/").data <+: k.data ∧
        k.data.drop (pfx ++ "/" ++ m.AccountID ++ "/").data.length = m.Name.data) := by
  constructor
  · intro h
    obtain ⟨m, hm, -, hk⟩ := (NamespaceKeyFunc_ok_iff pfx obj k).1 h
    refine ⟨m, hm, hk, ?_, ?_⟩
    · rw [hk, String.data_append]
      exact List.prefix_append _ _
    · rw [hk]
      simp only [String.data_append]
      rw [List.drop_left]
  · intro h
    obtain ⟨m, hm, -, hk⟩ := (NoNamespaceKeyFunc_ok_iff pfx obj k).1 h
    refine ⟨m, hm, hk, ?_, ?_⟩
    · rw [hk, String.data_append]
      exact List.prefix_append _ _
    · rw [hk]
      simp only [String.data_append]
      rw [List.drop_left]

/-- Witness of C17 on the pod `web` of namespace `default`, account `t1`. -/
theorem keys_extend_scan_range_witness :
    ∃ m, Object.withMeta ⟨"web", "default", "t1"⟩ = .withMeta m ∧
      ("/registry/pods/t1/default/web" : String)
        = ("/registry/pods" ++ "/" ++ m.AccountID ++ "/" ++ m.Namespace ++ "/") ++ m.Name ∧
      ("/registry/pods" ++ "/" ++ m.AccountID ++ "/" ++ m.Namespace ++ "/").data
        <+: ("/registry/pods/t1/default/web" : String).data ∧
      ("/registry/pods/t1/default/web" : String).data.drop
          ("/registry/pods" ++ "/" ++ m.AccountID ++ "/" ++ m.Namespace ++ "/").data.length
        = m.Name.data :=
  (keys_extend_scan_range "/registry/pods" (.withMeta ⟨"web", "default", "t1"⟩)
    "/registry/pods/t1/default/web").1 (by decide)

/-- C20: for a fixed prefix and objects whose account ID and namespace contain
no `/` and whose name is valid, `NamespaceKeyFunc` succeeds, is reversible
(removing `prefix + "/"` from the key and splitting the rest at `/` yields
exactly `[accountID, namespace, name]`) and injective (equal keys come from
equal metadata); and its key never equals the key `NoNamespaceKeyFunc` produces
for an object under the same precondition. -/
theorem NamespaceKeyFunc_reversible (pfx : String) (m₁ m₂ : ObjectMeta)
    (ha₁ : '/' ∉ m₁.AccountID.data) (hn₁ : '/' ∉ m₁.Namespace.data)
    (hv₁ : IsValidPathSegmentName m₁.Name = [])
    (ha₂ : '/' ∉ m₂.AccountID.data) (hn₂ : '/' ∉ m₂.Namespace.data)
    (hv₂ : IsValidPathSegmentName m₂.Name = []) :
    (NamespaceKeyFunc pfx (.withMeta m₁)).2 = none ∧
      decodeKey pfx (NamespaceKeyFunc pfx (.withMeta m₁)).1
        = [m₁.AccountID, m₁.Namespace, m₁.Name] ∧
      ((NamespaceKeyFunc pfx (.withMeta m₁)).1 = (NamespaceKeyFunc pfx (.withMeta m₂)).1 →
        m₁ = m₂) ∧
      (NoNamespaceKeyFunc pfx (.withMeta m₂)).2 = none ∧
      (NamespaceKeyFunc pfx (.withMeta m₁)).1 ≠ (NoNamespaceKeyFunc pfx (.withMeta m₂)).1 := by
  have hx₁ := ((IsValidPathSegmentName_eq_nil_iff _).1 hv₁).2.2.2
  have hx₂ := ((IsValidPathSegmentName_eq_nil_iff _).1 hv₂).2.2.2
  have dec : ∀ m : ObjectMeta, '/' ∉ m.AccountID.data → '/' ∉ m.Namespace.data →
      '/' ∉ m.Name.data →
      decodeKey pfx (pfx ++ "/" ++ m.AccountID ++ "/" ++ m.Namespace ++ "/" ++ m.Name)
        = [m.AccountID, m.Namespace, m.Name] := by
    intro m ha hn hx
    rw [decodeKey_data pfx _ _ (namespaced_key_data pfx _ _ _),
      splitSlash_append _ _ ha, splitSlash_append _ _ hn, splitSlash_of_not_mem _ hx]
    rfl
  have dec' : decodeKey pfx (pfx ++ "/" ++ m₂.AccountID ++ "/" ++ m₂.Name)
      = [m₂.AccountID, m₂.Name] := by
    rw [decodeKey_data pfx _ _ (cluster_key_data pfx _ _),
      splitSlash_append _ _ ha₂, splitSlash_of_not_mem _ hx₂]
    rfl
  rw [NamespaceKeyFunc_of_valid pfx m₁ hv₁, NamespaceKeyFunc_of_valid pfx m₂ hv₂,
    NoNamespaceKeyFunc_of_valid pfx m₂ hv₂]
  refine ⟨rfl, dec m₁ ha₁ hn₁ hx₁, ?_, rfl, ?_⟩
  · intro hk
    have h := congrArg (decodeKey pfx) hk
    simp only [dec m₁ ha₁ hn₁ hx₁, dec m₂ ha₂ hn₂ hx₂] at h
    simp only [List.cons.injEq, and_true] at h
    cases m₁; cases m₂
    simp_all
  · intro hk
    have h := congrArg (decodeKey pfx) hk
    simp only [dec m₁ ha₁ hn₁ hx₁, dec'] at h
    simp at h

/-- Witness of C20 on the pods `web` and `db` of namespace `default`, account `t1`. -/
theorem NamespaceKeyFunc_reversible_witness :
    (NamespaceKeyFunc "/registry/pods" (.withMeta ⟨"web", "default", "t1"⟩)).2 = none ∧
      decodeKey "/registry/pods"
          (NamespaceKeyFunc "/registry/pods" (.withMeta ⟨"web", "default", "t1"⟩)).1
        = ["t1", "default", "web"] ∧
      ((NamespaceKeyFunc "/registry/pods" (.withMeta ⟨"web", "default", "t1"⟩)).1
          = (NamespaceKeyFunc "/registry/pods" (.withMeta ⟨"db", "default", "t1"⟩)).1 →
        (⟨"web", "default", "t1"⟩ : ObjectMeta) = ⟨"db", "default", "t1"⟩) ∧
      (NoNamespaceKeyFunc "/registry/pods" (.withMeta ⟨"db", "default", "t1"⟩)).2 = none ∧
      (NamespaceKeyFunc "/registry/pods" (.withMeta ⟨"web", "default", "t1"⟩)).1
        ≠ (NoNamespaceKeyFunc "/registry/pods" (.withMeta ⟨"db", "default", "t1"⟩)).1 :=
  NamespaceKeyFunc_reversible "/registry/pods" ⟨"web", "default", "t1"⟩ ⟨"db", "default", "t1"⟩
    (by decide) (by decide) (by decide) (by decide) (by decide) (by decide)

/-! ## Key functions: which names fail -/

/-- C19: on an object with accessible metadata, `NamespaceKeyFunc` and
`NoNamespaceKeyFunc` fail if and only if the name is `.` or `..`, or contains
`/`, or contains `%`; the account ID, the namespace and the prefix never cause
a failure: with the same name the error returned is the same for every prefix,
account ID and namespace. -/
theorem keyFuncs_fail_iff (pfx : String) (m : ObjectMeta) :
    ((NamespaceKeyFunc pfx (.withMeta m)).2 ≠ none ↔
        (m.Name = "." ∨ m.Name = ".." ∨ '/' ∈ m.Name.data ∨ '%' ∈ m.Name.data)) ∧
      ((NoNamespaceKeyFunc pfx (.withMeta m)).2 ≠ none ↔
        (m.Name = "." ∨ m.Name = ".." ∨ '/' ∈ m.Name.data ∨ '%' ∈ m.Name.data)) ∧
      ∀ pfx' acc ns : String,
        (NamespaceKeyFunc pfx' (.withMeta ⟨m.Name, ns, acc⟩)).2
            = (NamespaceKeyFunc pfx (.withMeta m)).2 ∧
          (NoNamespaceKeyFunc pfx' (.withMeta ⟨m.Name, ns, acc⟩)).2
            = (NoNamespaceKeyFunc pfx (.withMeta m)).2 := by
  have hiff := IsValidPathSegmentName_eq_nil_iff m.Name
  by_cases hv : IsValidPathSegmentName m.Name = []
  · have hgood := hiff.1 hv
    have hno : ¬ (m.Name = "." ∨ m.Name = ".." ∨ '/' ∈ m.Name.data ∨ '%' ∈ m.Name.data) := by
      rintro (h | h | h | h)
      · exact hgood.1 h
      · exact hgood.2.1 h
      · exact hgood.2.2.2 h
      · exact hgood.2.2.1 h
    refine ⟨?_, ?_, fun pfx' acc ns => ⟨?_, ?_⟩⟩
    · rw [NamespaceKeyFunc_of_valid pfx m hv]
      simp [hno]
    · rw [NoNamespaceKeyFunc_of_valid pfx m hv]
      simp [hno]
    · rw [NamespaceKeyFunc_of_valid pfx m hv, NamespaceKeyFunc_of_valid pfx' ⟨m.Name, ns, acc⟩ hv]
    · rw [NoNamespaceKeyFunc_of_valid pfx m hv,
        NoNamespaceKeyFunc_of_valid pfx' ⟨m.Name, ns, acc⟩ hv]
  · have hbad : m.Name = "." ∨ m.Name = ".." ∨ '/' ∈ m.Name.data ∨ '%' ∈ m.Name.data := by
      by_contra hcon
      simp only [not_or] at hcon
      exact hv (hiff.2 ⟨hcon.1, hcon.2.1, hcon.2.2.2, hcon.2.2.1⟩)
    refine ⟨?_, ?_, fun pfx' acc ns => ⟨?_, ?_⟩⟩
    · rw [NamespaceKeyFunc_of_invalid pfx m hv]
      simp [hbad]
    · rw [NoNamespaceKeyFunc_of_invalid pfx m hv]
      simp [hbad]
    · rw [NamespaceKeyFunc_of_invalid pfx m hv,
        NamespaceKeyFunc_of_invalid pfx' ⟨m.Name, ns, acc⟩ hv]
    · rw [NoNamespaceKeyFunc_of_invalid pfx m hv,
        NoNamespaceKeyFunc_of_invalid pfx' ⟨m.Name, ns, acc⟩ hv]

/-! ## HighWaterMark: which calls of a sequence return true -/

/-- The running maximum is below `x` exactly when the initial value and every
candidate are. -/
theorem foldl_max_lt_iff (l : List Int) (init x : Int) :
    l.foldl max init < x ↔ init < x ∧ ∀ u ∈ l, u < x := by
  obtain ⟨h1, h2, h3⟩ := foldl_max_spec l init
  constructor
  · intro h
    exact ⟨lt_of_le_of_lt h1 h, fun u hu => lt_of_le_of_lt (h2 u hu) h⟩
  · rintro ⟨hi, hl⟩
    rcases List.mem_cons.1 h3 with h | h
    · rw [h]; exact hi
    · exact hl _ h

/-- The booleans returned by a sequence of calls: the call at position `i`
reports whether its candidate exceeds the maximum recorded before it. -/
theorem HighWaterMark.UpdateResults_succ (fuel : Nat) (init : Int) (vs : List Int) :
    ∃ rs, HighWaterMark.UpdateResults (fuel + 1) init vs = some rs ∧
      rs.length = vs.length ∧
      ∀ i v, vs[i]? = some v →
        rs[i]? = some (decide ((vs.take i).foldl max init < v)) := by
  induction vs generalizing init with
  | nil => exact ⟨[], rfl, rfl, by simp⟩
  | cons w t ih =>
    obtain ⟨rs, h1, h2, h3⟩ := ih (max init w)
    refine ⟨decide (init < w) :: rs, ?_, by simp [h2], ?_⟩
    · simp only [HighWaterMark.UpdateResults, HighWaterMark.Update_succ, h1]
    · intro i v hv
      cases i with
      | zero =>
        simp only [List.getElem?_cons_zero, Option.some.injEq] at hv
        simp [hv]
      | succ j =>
        simp only [List.getElem?_cons_succ] at hv
        simpa using h3 j v hv

/-- An earlier candidate is among the candidates before a later position. -/
theorem mem_take_of_getElem?_lt {vs : List Int} {i j : Nat} {v : Int}
    (hij : i < j) (hv : vs[i]? = some v) : v ∈ vs.take j :=
  List.getElem?_mem ((List.getElem?_take_of_lt hij).trans hv)

/-- C11: in every sequence of `Update` calls (one after the other), all calls
return and the call at position `i` returns true exactly when its candidate is
strictly greater than the initial value and than every earlier candidate.
Hence (second part) two calls that both return true never carry the same value;
(third part) whenever the cell takes a new value at position `i`, the call at
position `i` carries that value and returns true; and (last two parts)
resubmitting a value already recorded, be it the value the cell holds, the
initial value or an earlier candidate, returns false. -/
theorem HighWaterMark.UpdateResults_true_iff (fuel : Nat) (init : Int) (vs : List Int) :
    ∃ rs, HighWaterMark.UpdateResults (fuel + 1) init vs = some rs ∧
      rs.length = vs.length ∧
      (∀ (i : Nat) (v : Int), vs[i]? = some v →
        (rs[i]? = some true ↔ init < v ∧ ∀ u ∈ vs.take i, u < v)) ∧
      (∀ (i j : Nat) (v : Int), vs[i]? = some v → vs[j]? = some v →
        rs[i]? = some true → rs[j]? = some true → i = j) ∧
      (∀ (i : Nat) (x : Int), i < vs.length →
        HighWaterMark.UpdateAll (fuel + 1) init (vs.take (i + 1)) = some x →
        HighWaterMark.UpdateAll (fuel + 1) init (vs.take i) ≠ some x →
        vs[i]? = some x ∧ rs[i]? = some true) ∧
      (∀ (i : Nat) (v : Int), vs[i]? = some v →
        HighWaterMark.UpdateAll (fuel + 1) init (vs.take i) = some v → rs[i]? = some false) ∧
      (∀ (i : Nat) (v : Int), vs[i]? = some v → (v = init ∨ v ∈ vs.take i) → rs[i]? = some false) := by
  obtain ⟨rs, h1, h2, h3⟩ := HighWaterMark.UpdateResults_succ fuel init vs
  have hiff : ∀ (i : Nat) (v : Int), vs[i]? = some v →
      (rs[i]? = some true ↔ init < v ∧ ∀ u ∈ vs.take i, u < v) := by
    intro i v hv
    rw [h3 i v hv, ← foldl_max_lt_iff]
    simp
  have hfalse : ∀ (i : Nat) (v : Int), vs[i]? = some v → ¬ (vs.take i).foldl max init < v →
      rs[i]? = some false := by
    intro i v hv hn
    rw [h3 i v hv]
    simp [hn]
  have hlt : ∀ (i j : Nat) (v : Int), i < j → vs[i]? = some v → vs[j]? = some v →
      rs[j]? = some true → False := by
    intro i j v hij hi hj hr
    exact lt_irrefl v (((hiff j v hj).1 hr).2 v (mem_take_of_getElem?_lt hij hi))
  refine ⟨rs, h1, h2, hiff, ?_, ?_, ?_, ?_⟩
  · intro i j v hi hj hri hrj
    rcases Nat.lt_trichotomy i j with h | h | h
    · exact (hlt i j v h hi hj hrj).elim
    · exact h
    · exact (hlt j i v h hj hi hri).elim
  · intro i x hi hx hnx
    rw [HighWaterMark.UpdateAll_succ] at hx hnx
    have hget : vs[i]? = some vs[i] := List.getElem?_eq_getElem hi
    rw [List.take_succ, hget] at hx
    simp only [Option.toList_some, List.foldl_append, List.foldl_cons, List.foldl_nil,
      Option.some.injEq] at hx
    have hne : (vs.take i).foldl max init ≠ x := fun h => hnx (by rw [h])
    rcases le_total ((vs.take i).foldl max init) vs[i] with hle | hle
    · rw [max_eq_right hle] at hx
      have hlt' : (vs.take i).foldl max init < vs[i] :=
        lt_of_le_of_ne hle (fun h => hne (by rw [h, hx]))
      refine ⟨by rw [hget, hx], ?_⟩
      rw [h3 i _ hget]
      simp [hlt']
    · rw [max_eq_left hle] at hx
      exact absurd hx hne
  · intro i v hv hx
    rw [HighWaterMark.UpdateAll_succ] at hx
    simp only [Option.some.injEq] at hx
    exact hfalse i v hv (by rw [hx]; exact lt_irrefl v)
  · intro i v hv hmem
    apply hfalse i v hv
    intro hlt'
    have h := (foldl_max_lt_iff _ _ _).1 hlt'
    rcases hmem with h0 | h0
    · rw [h0] at h; exact lt_irrefl _ h.1
    · exact lt_irrefl _ (h.2 v h0)

/-- Witness of C11: from the initial value 3, the candidates 5, 5, 3, 9 return
true, false, false, true. -/
theorem HighWaterMark.UpdateResults_true_iff_witness :
    HighWaterMark.UpdateResults 1 3 [5, 5, 3, 9] = some [true, false, false, true] := by
  obtain ⟨rs, h1, h2, h3, -, -, -, h7⟩ := HighWaterMark.UpdateResults_true_iff 0 3 [5, 5, 3, 9]
  rw [h1]
  have e0 := (h3 0 5 rfl).2 (by decide)
  have e1 := h7 1 5 rfl (by decide)
  have e2 := h7 2 3 rfl (by decide)
  have e3 := (h3 3 9 rfl).2 (by decide)
  match rs, h2, e0, e1, e2, e3 with
  | [a, b, c, d], _, e0, e1, e2, e3 =>
    simp only [List.getElem?_cons_zero, List.getElem?_cons_succ, Option.some.injEq] at e0 e1 e2 e3
    rw [e0, e1, e2, e3]

/-! ## HighWaterMark under concurrent callers: the invariant -/

/-- Replacing an element by one with the same image leaves the mapped list as it is. -/
theorem map_set_of_getElem? {α β : Type} (f : α → β) (l : List α) (i : Nat) (c c' : α)
    (h : l[i]? = some c) (hf : f c' = f c) : (l.set i c').map f = l.map f := by
  induction l generalizing i with
  | nil => simp
  | cons x xs ih =>
    cases i with
    | zero =>
      simp only [List.getElem?_cons_zero, Option.some.injEq] at h
      simp [List.set, hf, h]
    | succ j =>
      simp only [List.getElem?_cons_succ] at h
      simp [List.set, ih j h]

/-- The per-call invariant survives a growth of the cell. -/
theorem UpdateCall.Ok.mono {init : Int} {vs : List Int} {hwm hwm' : Int} {c : UpdateCall}
    (h : c.Ok init vs hwm) (hle : hwm ≤ hwm') : c.Ok init vs hwm' := by
  obtain ⟨h1, h2, h3, h4⟩ := h
  refine ⟨fun x hx => le_trans (h1 x hx) hle, h2, h3, ?_⟩
  cases hpc : c.pc with
  | atLoad =>
    rw [hpc] at h4
    exact fun x hx => lt_of_lt_of_le (h4 x hx) hle
  | atSwap old =>
    rw [hpc] at h4
    exact h4
  | returned b =>
    rw [hpc] at h4
    exact le_trans h4 hle

/-- A step that neither changes the cell nor completes a swap keeps the invariant. -/
theorem UpdateSystem.Inv.set_call {init : Int} {vs : List Int} {s : UpdateSystem}
    (hs : s.Inv init vs) {i : Nat} {c c' : UpdateCall} (hc : s.calls[i]? = some c)
    (hcur : c'.current = c.current) (hok : c'.Ok init vs s.hwm)
    (hpc : c.pc ≠ .returned true) (hpc' : c'.pc ≠ .returned true) :
    UpdateSystem.Inv init vs { s with calls := s.calls.set i c' } := by
  have hi : i < s.calls.length := (List.getElem?_eq_some.1 hc).1
  refine ⟨?_, hs.init_le, hs.hwm_mem, ?_, hs.log_sorted, hs.log_le, ?_⟩
  · rw [← hs.map_current]
    exact map_set_of_getElem? _ _ _ _ _ hc hcur
  · intro d hd
    rcases List.mem_or_eq_of_mem_set hd with h | h
    · exact hs.calls_ok d h
    · rw [h]; exact hok
  · intro j v
    rw [hs.log_iff j v]
    by_cases hij : i = j
    · subst hij
      constructor
      · rintro ⟨d, hd, -, hdp⟩
        rw [hc] at hd
        cases hd
        exact absurd hdp hpc
      · rintro ⟨d, hd, -, hdp⟩
        simp only [List.getElem?_set_self hi, Option.some.injEq] at hd
        rw [← hd] at hdp
        exact absurd hdp hpc'
    · simp only [List.getElem?_set_ne hij]

/-- A successful compare-and-swap keeps the invariant. -/
theorem UpdateSystem.Inv.swap_call {init : Int} {vs : List Int} {s : UpdateSystem}
    (hs : s.Inv init vs) {i : Nat} {c : UpdateCall} (hc : s.calls[i]? = some c)
    (hpc : c.pc = .atSwap s.hwm) :
    UpdateSystem.Inv init vs
      { hwm := c.current
        calls := s.calls.set i { c with pc := .returned true }
        swapped := s.swapped ++ [(i, c.current)] } := by
  have hi : i < s.calls.length := (List.getElem?_eq_some.1 hc).1
  have hmem : c ∈ s.calls := List.getElem?_mem hc
  have hok := hs.calls_ok c hmem
  have hlt : s.hwm < c.current := by
    have h4 := hok.2.2.2
    rw [hpc] at h4
    exact h4.1
  have hcv : c.current ∈ vs := by
    rw [← hs.map_current]
    exact List.mem_map_of_mem _ hmem
  refine ⟨?_, le_trans hs.init_le (le_of_lt hlt), List.mem_cons_of_mem _ hcv, ?_, ?_, ?_, ?_⟩
  · rw [← hs.map_current]
    exact map_set_of_getElem? _ _ _ _ _ hc rfl
  · intro d hd
    rcases List.mem_or_eq_of_mem_set hd with h | h
    · exact (hs.calls_ok d h).mono (le_of_lt hlt)
    · rw [h]
      have hm := hok.mono (le_of_lt hlt)
      exact ⟨hm.1, hm.2.1, hm.2.2.1, le_refl _⟩
  · simp only [List.map_append, List.map_cons, List.map_nil]
    rw [List.pairwise_append]
    refine ⟨hs.log_sorted, List.pairwise_singleton _ _, ?_⟩
    intro a ha b hb
    simp only [List.mem_singleton] at hb
    obtain ⟨q, hq, hqa⟩ := List.mem_map.1 ha
    rw [hb, ← hqa]
    exact lt_of_le_of_lt (hs.log_le q hq) hlt
  · intro q hq
    rcases List.mem_append.1 hq with h | h
    · exact le_trans (hs.log_le q h) (le_of_lt hlt)
    · simp only [List.mem_singleton] at h
      rw [h]
  · intro j v
    simp only [List.mem_append, List.mem_singleton, Prod.mk.injEq]
    rw [hs.log_iff j v]
    by_cases hij : i = j
    · subst hij
      simp only [List.getElem?_set_self hi, Option.some.injEq]
      constructor
      · rintro (⟨d, hd, -, hdp⟩ | ⟨-, hv⟩)
        · rw [hc] at hd
          cases hd
          rw [hpc] at hdp
          cases hdp
        · exact ⟨_, rfl, hv.symm, rfl⟩
      · rintro ⟨d, hd, hdv, -⟩
        right
        rw [← hd] at hdv
        exact ⟨trivial, hdv.symm⟩
    · simp only [List.getElem?_set_ne hij]
      constructor
      · rintro (h | ⟨hji, -⟩)
        · exact h
        · exact absurd hji.symm hij
      · intro h
        exact Or.inl h

/-- A step of an index without a call changes nothing. -/
theorem UpdateSystem.step_none {s : UpdateSystem} {i : Nat} (hc : s.calls[i]? = none) :
    s.step i = s := by
  unfold UpdateSystem.step
  simp [hc]

/-- A step of a call that has returned changes nothing. -/
theorem UpdateSystem.step_returned {s : UpdateSystem} {i : Nat} {c : UpdateCall} {b : Bool}
    (hc : s.calls[i]? = some c) (hpc : c.pc = .returned b) : s.step i = s := by
  unfold UpdateSystem.step
  simp [hc, hpc]

/-- The load of a call whose candidate is not above the cell: the call returns false. -/
theorem UpdateSystem.step_load_le {s : UpdateSystem} {i : Nat} {c : UpdateCall}
    (hc : s.calls[i]? = some c) (hpc : c.pc = .atLoad) (h : c.current ≤ s.hwm) :
    s.step i
      = { s with calls := s.calls.set i { c with pc := .returned false, seen := s.hwm :: c.seen } } := by
  unfold UpdateSystem.step
  simp [hc, hpc, LoadInt64, h]

/-- The load of a call whose candidate is above the cell: the call goes on to swap. -/
theorem UpdateSystem.step_load_gt {s : UpdateSystem} {i : Nat} {c : UpdateCall}
    (hc : s.calls[i]? = some c) (hpc : c.pc = .atLoad) (h : s.hwm < c.current) :
    s.step i
      = { s with calls := s.calls.set i { c with pc := .atSwap s.hwm, seen := s.hwm :: c.seen } } := by
  unfold UpdateSystem.step
  simp [hc, hpc, LoadInt64, not_le.mpr h]

/-- The compare-and-swap of a call finds the cell as the call saw it: the
candidate is stored and the call returns true. -/
theorem UpdateSystem.step_swap_ok {s : UpdateSystem} {i : Nat} {c : UpdateCall} {old : Int}
    (hc : s.calls[i]? = some c) (hpc : c.pc = .atSwap old) (h : s.hwm = old) :
    s.step i
      = { hwm := c.current
          calls := s.calls.set i { c with pc := .returned true }
          swapped := s.swapped ++ [(i, c.current)] } := by
  unfold UpdateSystem.step
  simp [hc, hpc, CompareAndSwapInt64, h]

/-- The compare-and-swap of a call finds the cell changed: nothing is stored
and the call goes back to its load. -/
theorem UpdateSystem.step_swap_fail {s : UpdateSystem} {i : Nat} {c : UpdateCall} {old : Int}
    (hc : s.calls[i]? = some c) (hpc : c.pc = .atSwap old) (h : s.hwm ≠ old) :
    s.step i = { s with calls := s.calls.set i { c with pc := .atLoad } } := by
  unfold UpdateSystem.step
  simp [hc, hpc, CompareAndSwapInt64, h]

/-- Every step keeps the invariant. -/
theorem UpdateSystem.Inv.step {init : Int} {vs : List Int} {s : UpdateSystem}
    (hs : s.Inv init vs) (i : Nat) : (s.step i).Inv init vs := by
  cases hc : s.calls[i]? with
  | none => rw [UpdateSystem.step_none hc]; exact hs
  | some c =>
    have hok := hs.calls_ok c (List.getElem?_mem hc)
    obtain ⟨h1, h2, h3, h4⟩ := hok
    cases hpc : c.pc with
    | returned b => rw [UpdateSystem.step_returned hc hpc]; exact hs
    | atLoad =>
      rw [hpc] at h4
      have hseen : ∀ x ∈ s.hwm :: c.seen, x ≤ s.hwm := by
        intro x hx
        rcases List.mem_cons.1 hx with h | h
        · rw [h]
        · exact h1 x h
      have hsub : ∀ x ∈ s.hwm :: c.seen, x ∈ init :: vs := by
        intro x hx
        rcases List.mem_cons.1 hx with h | h
        · rw [h]; exact hs.hwm_mem
        · exact h2 x h
      have hpw : (s.hwm :: c.seen).Pairwise (fun a b => b < a) :=
        List.pairwise_cons.2 ⟨h4, h3⟩
      by_cases h : c.current ≤ s.hwm
      · rw [UpdateSystem.step_load_le hc hpc h]
        exact hs.set_call hc rfl ⟨hseen, hsub, hpw, h⟩ (by rw [hpc]; simp) (by simp)
      · have h' : s.hwm < c.current := not_le.mp h
        rw [UpdateSystem.step_load_gt hc hpc h']
        exact hs.set_call hc rfl ⟨hseen, hsub, hpw, h', _, rfl⟩ (by rw [hpc]; simp) (by simp)
    | atSwap old =>
      rw [hpc] at h4
      obtain ⟨hlt, rest, hrest⟩ := h4
      by_cases h : s.hwm = old
      · rw [UpdateSystem.step_swap_ok hc hpc h]
        exact hs.swap_call hc (by rw [hpc, h])
      · rw [UpdateSystem.step_swap_fail hc hpc h]
        refine hs.set_call hc rfl ⟨h1, h2, h3, ?_⟩ (by rw [hpc]; simp) (by simp)
        have hold : old < s.hwm :=
          lt_of_le_of_ne (h1 old (by rw [hrest]; simp)) (fun e => h e.symm)
        intro x hx
        show x < s.hwm
        rw [hrest] at hx h3
        rcases List.mem_cons.1 hx with hx | hx
        · rw [hx]; exact hold
        · exact lt_trans ((List.pairwise_cons.1 h3).1 x hx) hold

/-- The invariant holds at the start. -/
theorem UpdateSystem.Inv.start (init : Int) (vs : List Int) :
    (UpdateSystem.start init vs).Inv init vs := by
  refine ⟨?_, le_refl _, by simp [UpdateSystem.start], ?_, by simp [UpdateSystem.start],
    by simp [UpdateSystem.start], ?_⟩
  · simp [UpdateSystem.start, Function.comp_def]
  · intro c hc
    simp only [UpdateSystem.start, List.mem_map] at hc
    obtain ⟨v, -, hv⟩ := hc
    rw [← hv]
    exact ⟨by simp, by simp, by simp, by simp⟩
  · intro i v
    simp only [UpdateSystem.start, List.not_mem_nil, false_iff, List.getElem?_map]
    rintro ⟨c, hc, -, hpc⟩
    cases hv : vs[i]? with
    | none => simp [hv] at hc
    | some w =>
      simp only [hv, Option.map_some', Option.some.injEq] at hc
      rw [← hc] at hpc
      cases hpc

/-- The invariant holds after every schedule. -/
theorem UpdateSystem.Inv.run {init : Int} {vs : List Int} {s : UpdateSystem}
    (hs : s.Inv init vs) (sched : List Nat) : (s.run sched).Inv init vs := by
  induction sched generalizing s with
  | nil => exact hs
  | cons i t ih => exact ih (hs.step i)

/-- Running a schedule and then one more step. -/
theorem UpdateSystem.run_concat (s : UpdateSystem) (sched : List Nat) (j : Nat) :
    s.run (sched ++ [j]) = (s.run sched).step j := by
  simp [UpdateSystem.run, List.foldl_append]

/-- One step of the call `j` adds one to the steps it has been given and leaves
the other calls as they are. -/
theorem UpdateSystem.stepsTaken_step (s : UpdateSystem) (j : Nat) (n : Nat → Nat)
    (hn : ∀ (i : Nat) (c : UpdateCall), s.calls[i]? = some c → c.StepsTaken (n i)) :
    ∀ (i : Nat) (c : UpdateCall), (s.step j).calls[i]? = some c →
      c.StepsTaken (n i + if j = i then 1 else 0) := by
  intro i c' h
  by_cases hji : j = i
  · subst hji
    simp only [if_true]
    cases hc : s.calls[j]? with
    | none =>
      rw [UpdateSystem.step_none hc, hc] at h
      cases h
    | some d =>
      have hj : j < s.calls.length := (List.getElem?_eq_some.1 hc).1
      have hd := hn j d hc
      cases hpc : d.pc with
      | returned b =>
        rw [UpdateSystem.step_returned hc hpc, hc] at h
        cases h
        simp [UpdateCall.StepsTaken, hpc]
      | atLoad =>
        simp only [UpdateCall.StepsTaken, hpc] at hd
        by_cases hle : d.current ≤ s.hwm
        · rw [UpdateSystem.step_load_le hc hpc hle] at h
          simp only [List.getElem?_set_self hj, Option.some.injEq] at h
          rw [← h]
          simp [UpdateCall.StepsTaken]
        · rw [UpdateSystem.step_load_gt hc hpc (not_le.mp hle)] at h
          simp only [List.getElem?_set_self hj, Option.some.injEq] at h
          rw [← h]
          simp only [UpdateCall.StepsTaken, List.length_cons]
          omega
      | atSwap old =>
        simp only [UpdateCall.StepsTaken, hpc] at hd
        by_cases heq : s.hwm = old
        · rw [UpdateSystem.step_swap_ok hc hpc heq] at h
          simp only [List.getElem?_set_self hj, Option.some.injEq] at h
          rw [← h]
          simp [UpdateCall.StepsTaken]
        · rw [UpdateSystem.step_swap_fail hc hpc heq] at h
          simp only [List.getElem?_set_self hj, Option.some.injEq] at h
          rw [← h]
          simp only [UpdateCall.StepsTaken]
          omega
  · simp only [if_neg hji, Nat.add_zero]
    apply hn i c'
    cases hc : s.calls[j]? with
    | none => rw [UpdateSystem.step_none hc] at h; exact h
    | some d =>
      cases hpc : d.pc with
      | returned b => rw [UpdateSystem.step_returned hc hpc] at h; exact h
      | atLoad =>
        by_cases hle : d.current ≤ s.hwm
        · rw [UpdateSystem.step_load_le hc hpc hle] at h
          simpa only [List.getElem?_set_ne hji] using h
        · rw [UpdateSystem.step_load_gt hc hpc (not_le.mp hle)] at h
          simpa only [List.getElem?_set_ne hji] using h
      | atSwap old =>
        by_cases heq : s.hwm = old
        · rw [UpdateSystem.step_swap_ok hc hpc heq] at h
          simpa only [List.getElem?_set_ne hji] using h
        · rw [UpdateSystem.step_swap_fail hc hpc heq] at h
          simpa only [List.getElem?_set_ne hji] using h

/-- After a schedule, every call that has not returned has taken as many steps
as the schedule gave it. -/
theorem UpdateSystem.stepsTaken_run (init : Int) (vs : List Int) (sched : List Nat) :
    ∀ (i : Nat) (c : UpdateCall), ((UpdateSystem.start init vs).run sched).calls[i]? = some c →
      c.StepsTaken (sched.count i) := by
  induction sched using List.reverseRecOn with
  | nil =>
    intro i c h
    simp only [UpdateSystem.run, List.foldl_nil, UpdateSystem.start, List.getElem?_map] at h
    cases hv : vs[i]? with
    | none => simp [hv] at h
    | some w =>
      simp only [hv, Option.map_some', Option.some.injEq] at h
      rw [← h]
      simp [UpdateCall.StepsTaken]
  | append_singleton t j ih =>
    intro i c h
    rw [UpdateSystem.run_concat] at h
    have := UpdateSystem.stepsTaken_step _ j (fun i => t.count i) ih i c h
    simpa [List.count_append, List.count_singleton] using this

/-- A strictly decreasing list of values taken from `l` is not longer than `l`. -/
theorem length_le_of_pairwise_gt {xs l : List Int} (hp : xs.Pairwise (fun a b => b < a))
    (hsub : ∀ x ∈ xs, x ∈ l) : xs.length ≤ l.length := by
  have hnd : xs.Nodup := hp.imp (fun h => (ne_of_lt h).symm)
  exact (List.subperm_of_subset hnd hsub).length_le

/-! ## HighWaterMark under concurrent callers: no lost update, termination -/

/-- C12: `N` callers run `Update(v1)`, ..., `Update(vN)` concurrently on a cell
holding `init`, their atomic loads and compare-and-swaps interleaved by an
arbitrary schedule. Then, in the state the schedule leads to: the values stored
by the swaps that took effect are strictly increasing in the order the swaps
took effect; the calls logged with such a swap are exactly the calls that
returned true, each with its own candidate; and once all calls have returned,
the cell equals `max(v1..vN, init)`, so no update is lost. -/
theorem HighWaterMark.concurrent_no_lost_update (init : Int) (vs : List Int)
    (sched : List Nat) (S : UpdateSystem) (hS : S = (UpdateSystem.start init vs).run sched) :
    S.calls.map UpdateCall.current = vs ∧
      (S.swapped.map Prod.snd).Pairwise (fun a b => a < b) ∧
      (∀ (i : Nat) (v : Int), (i, v) ∈ S.swapped ↔
        ∃ c, S.calls[i]? = some c ∧ c.current = v ∧ c.pc = .returned true) ∧
      ((∀ c ∈ S.calls, c.done = true) → S.hwm = vs.foldl max init) := by
  have hinv : S.Inv init vs := by
    rw [hS]
    exact (UpdateSystem.Inv.start init vs).run sched
  refine ⟨hinv.map_current, hinv.log_sorted, hinv.log_iff, ?_⟩
  intro hdone
  have hub : ∀ v ∈ vs, v ≤ S.hwm := by
    intro v hv
    rw [← hinv.map_current] at hv
    obtain ⟨c, hc, hcv⟩ := List.mem_map.1 hv
    have hok := (hinv.calls_ok c hc).2.2.2
    have hd := hdone c hc
    cases hpc : c.pc with
    | atLoad => simp [UpdateCall.done, hpc] at hd
    | atSwap old => simp [UpdateCall.done, hpc] at hd
    | returned b =>
      rw [hpc] at hok
      rw [← hcv]
      exact hok
  obtain ⟨g1, g2, g3⟩ := foldl_max_spec vs init
  apply le_antisymm
  · rcases List.mem_cons.1 hinv.hwm_mem with h | h
    · rw [h]; exact g1
    · exact g2 _ h
  · rcases List.mem_cons.1 g3 with h | h
    · rw [h]; exact hinv.init_le
    · exact hub _ h

/-- Witness of C12: the calls `Update(5)` and `Update(7)` on a cell holding 0.
Both load 0, the second call swaps first, the first call fails its swap,
loads again and returns false; the cell ends at 7. -/
theorem HighWaterMark.concurrent_no_lost_update_witness :
    ((UpdateSystem.start 0 [5, 7]).run [0, 1, 1, 0, 0]).hwm = [5, 7].foldl max 0 ∧
      ((UpdateSystem.start 0 [5, 7]).run [0, 1, 1, 0, 0]).swapped = [(1, 7)] :=
  ⟨(HighWaterMark.concurrent_no_lost_update 0 [5, 7] [0, 1, 1, 0, 0] _ rfl).2.2.2 (by decide),
    by decide⟩

/-- C18: in the concurrent system, where the cell is changed by `Update` calls
only, in every reachable state:
(1) the values a call has observed are strictly increasing from one iteration
to the next;
(2) a call makes at most `N + 1` observations, and a call that the schedule
has given `2 * N + 2` steps has returned;
(3) a load that observes a value at least the candidate makes the call return
false and leaves the cell alone;
(4) a compare-and-swap that finds the observed value stores the candidate and
makes the call return true;
(5) a compare-and-swap fails only when the cell differs from the observed
value, the cell is then strictly larger, and the call goes back to its load;
(6) a call that takes its load and the next step without interference has
returned, after a single observation;
(7) the sequential `Update` returns with fuel for one iteration. -/
theorem HighWaterMark.concurrent_retry_terminates (init : Int) (vs : List Int)
    (sched : List Nat) (S : UpdateSystem) (hS : S = (UpdateSystem.start init vs).run sched) :
    (∀ c ∈ S.calls, c.seen.Pairwise (fun a b => b < a)) ∧
      ((∀ c ∈ S.calls, c.seen.length ≤ vs.length + 1) ∧
        ∀ i : Nat, i < vs.length → 2 * vs.length + 2 ≤ sched.count i →
          ∃ c, S.calls[i]? = some c ∧ c.done = true) ∧
      (∀ (i : Nat) (c : UpdateCall), S.calls[i]? = some c → c.pc = .atLoad →
        c.current ≤ S.hwm →
        (S.step i).hwm = S.hwm ∧
          (S.step i).calls[i]?
            = some { c with pc := .returned false, seen := S.hwm :: c.seen }) ∧
      (∀ (i : Nat) (c : UpdateCall) (old : Int), S.calls[i]? = some c → c.pc = .atSwap old →
        S.hwm = old →
        (S.step i).hwm = c.current ∧
          (S.step i).calls[i]? = some { c with pc := .returned true }) ∧
      (∀ (i : Nat) (c : UpdateCall) (old : Int), S.calls[i]? = some c → c.pc = .atSwap old →
        S.hwm ≠ old →
        old < S.hwm ∧ (S.step i).hwm = S.hwm ∧
          (S.step i).calls[i]? = some { c with pc := .atLoad }) ∧
      (∀ (i : Nat) (c : UpdateCall), S.calls[i]? = some c → c.pc = .atLoad →
        ∃ c', ((S.step i).step i).calls[i]? = some c' ∧ c'.done = true ∧
          c'.seen = S.hwm :: c.seen) ∧
      (∀ hwm c : Int, ∃ out, HighWaterMark.Update 1 hwm c = some out) := by
  have hinv : S.Inv init vs := by
    rw [hS]
    exact (UpdateSystem.Inv.start init vs).run sched
  have hlen : S.calls.length = vs.length := by
    rw [← hinv.map_current, List.length_map]
  refine ⟨fun c hc => (hinv.calls_ok c hc).2.2.1, ⟨?_, ?_⟩, ?_, ?_, ?_, ?_, ?_⟩
  · intro c hc
    obtain ⟨-, h2, h3, -⟩ := hinv.calls_ok c hc
    exact length_le_of_pairwise_gt h3 h2
  · intro i hi hcount
    have hi' : i < S.calls.length := by rw [hlen]; exact hi
    refine ⟨S.calls[i], List.getElem?_eq_getElem hi', ?_⟩
    have hget : S.calls[i]? = some S.calls[i] := List.getElem?_eq_getElem hi'
    have hsteps := UpdateSystem.stepsTaken_run init vs sched i S.calls[i] (by rw [← hS]; exact hget)
    obtain ⟨h1, h2, h3, h4⟩ := hinv.calls_ok _ (List.getElem?_mem hget)
    cases hpc : (S.calls[i]).pc with
    | returned b => simp [UpdateCall.done, hpc]
    | atLoad =>
      exfalso
      simp only [UpdateCall.StepsTaken, hpc] at hsteps
      rw [hpc] at h4
      have hb : (S.hwm :: (S.calls[i]).seen).length ≤ (init :: vs).length := by
        apply length_le_of_pairwise_gt (List.pairwise_cons.2 ⟨h4, h3⟩)
        intro x hx
        rcases List.mem_cons.1 hx with h | h
        · rw [h]; exact hinv.hwm_mem
        · exact h2 x h
      simp only [List.length_cons] at hb
      omega
    | atSwap old =>
      exfalso
      simp only [UpdateCall.StepsTaken, hpc] at hsteps
      have hb := length_le_of_pairwise_gt h3 h2
      simp only [List.length_cons] at hb
      omega
  · intro i c hc hpc hle
    have hi : i < S.calls.length := (List.getElem?_eq_some.1 hc).1
    rw [UpdateSystem.step_load_le hc hpc hle]
    exact ⟨rfl, by simp only [List.getElem?_set_self hi]⟩
  · intro i c old hc hpc heq
    have hi : i < S.calls.length := (List.getElem?_eq_some.1 hc).1
    rw [UpdateSystem.step_swap_ok hc hpc heq]
    exact ⟨rfl, by simp only [List.getElem?_set_self hi]⟩
  · intro i c old hc hpc hne
    have hi : i < S.calls.length := (List.getElem?_eq_some.1 hc).1
    obtain ⟨h1, -, -, h4⟩ := hinv.calls_ok c (List.getElem?_mem hc)
    rw [hpc] at h4
    obtain ⟨-, rest, hrest⟩ := h4
    rw [UpdateSystem.step_swap_fail hc hpc hne]
    refine ⟨lt_of_le_of_ne (h1 old (by rw [hrest]; simp)) (fun e => hne e.symm), rfl, ?_⟩
    simp only [List.getElem?_set_self hi]
  · intro i c hc hpc
    have hi : i < S.calls.length := (List.getElem?_eq_some.1 hc).1
    by_cases hle : c.current ≤ S.hwm
    · rw [UpdateSystem.step_load_le hc hpc hle]
      have h1 : (S.calls.set i { c with pc := .returned false, seen := S.hwm :: c.seen })[i]?
          = some { c with pc := .returned false, seen := S.hwm :: c.seen } :=
        List.getElem?_set_self hi
      refine ⟨{ c with pc := .returned false, seen := S.hwm :: c.seen }, ?_, rfl, rfl⟩
      rw [UpdateSystem.step_returned h1 rfl]
      exact h1
    · rw [UpdateSystem.step_load_gt hc hpc (not_le.mp hle)]
      have h1 : (S.calls.set i { c with pc := .atSwap S.hwm, seen := S.hwm :: c.seen })[i]?
          = some { c with pc := .atSwap S.hwm, seen := S.hwm :: c.seen } :=
        List.getElem?_set_self hi
      refine ⟨{ c with pc := .returned true, seen := S.hwm :: c.seen }, ?_, rfl, rfl⟩
      rw [UpdateSystem.step_swap_ok h1 rfl rfl]
      simp [hi]
  · intro hwm c
    exact ⟨_, HighWaterMark.Update_succ 0 hwm c⟩

/-- Witness of C18: with two callers, a call that has been given six steps has
returned, whatever the other call did in between. -/
theorem HighWaterMark.concurrent_retry_terminates_witness :
    ∃ c, ((UpdateSystem.start 0 [5, 7]).run [0, 1, 1, 0, 0, 0, 0, 0]).calls[0]? = some c ∧
      c.done = true :=
  (HighWaterMark.concurrent_retry_terminates 0 [5, 7] [0, 1, 1, 0, 0, 0, 0, 0] _ rfl).2.1.2 0
    (by decide) (by decide)

/-! ## GuardedUpdate: steps and invariant -/

/-- A step of an index without a call changes nothing. -/
theorem GuardedSystem.guarded_step_none {α ε : Type} {s : GuardedSystem α ε} {i : Nat}
    (hc : s.calls[i]? = none) : s.step i = s := by
  unfold GuardedSystem.step
  simp [hc]

/-- A step of a call that has finished changes nothing. -/
theorem GuardedSystem.step_finished {α ε : Type} {s : GuardedSystem α ε} {i : Nat}
    {c : GuardedCall α ε} {r : Except (GuardedError ε) (StoredObject α)}
    (hc : s.calls[i]? = some c) (hpc : c.pc = .finished r) : s.step i = s := by
  unfold GuardedSystem.step
  simp [hc, hpc]

/-- The read of an absent key that is not tolerated ends the call with `NotFound`. -/
theorem GuardedSystem.step_read_notFound {α ε : Type} {s : GuardedSystem α ε} {i : Nat}
    {c : GuardedCall α ε} (hc : s.calls[i]? = some c) (hpc : c.pc = .atRead)
    (h : (s.backend.isNone && !c.ignoreNotFound) = true) :
    s.step i = { s with calls := s.calls.set i { c with pc := .finished (.error .NotFound) } } := by
  unfold GuardedSystem.step
  simp only [hc, hpc, h, if_true]

/-- The read followed by a transform that fails ends the call with that error. -/
theorem GuardedSystem.step_read_error {α ε : Type} {s : GuardedSystem α ε} {i : Nat}
    {c : GuardedCall α ε} {e : ε} (hc : s.calls[i]? = some c) (hpc : c.pc = .atRead)
    (h : (s.backend.isNone && !c.ignoreNotFound) = false)
    (ht : c.transform (s.backend.map (fun obj => obj.payload)) ⟨currentVersion s.backend⟩
      = .error e) :
    s.step i = { s with calls := s.calls.set i { c with pc := .finished (.error (.transform e)), invoked := (s.backend.map (fun obj => obj.payload), currentVersion s.backend) :: c.invoked } } := by
  unfold GuardedSystem.step
  simp only [hc, hpc, h, ht]
  rfl

/-- The read followed by a transform that succeeds leads to the conditional write. -/
theorem GuardedSystem.step_read_ok {α ε : Type} {s : GuardedSystem α ε} {i : Nat}
    {c : GuardedCall α ε} {new : α} {ttl : Option Nat} (hc : s.calls[i]? = some c)
    (hpc : c.pc = .atRead) (h : (s.backend.isNone && !c.ignoreNotFound) = false)
    (ht : c.transform (s.backend.map (fun obj => obj.payload)) ⟨currentVersion s.backend⟩
      = .ok (new, ttl)) :
    s.step i = { s with calls := s.calls.set i { c with pc := .atWrite (currentVersion s.backend) new ttl, invoked := (s.backend.map (fun obj => obj.payload), currentVersion s.backend) :: c.invoked } } := by
  unfold GuardedSystem.step
  simp only [hc, hpc, h, ht]
  rfl

/-- The conditional write against the version the key still has succeeds. -/
theorem GuardedSystem.step_write_ok {α ε : Type} {s : GuardedSystem α ε} {i : Nat}
    {c : GuardedCall α ε} {seen : Nat} {new : α} {ttl : Option Nat}
    (hc : s.calls[i]? = some c) (hpc : c.pc = .atWrite seen new ttl)
    (h : currentVersion s.backend = seen) :
    s.step i
      = { backend := some ⟨new, seen + 1, ttl⟩
          calls := s.calls.set i { c with pc := .finished (.ok ⟨new, seen + 1, ttl⟩) }
          writes := s.writes ++ [(i, seen)] } := by
  unfold GuardedSystem.step
  simp only [hc, hpc, h, if_true]

/-- The conditional write against a version the key no longer has is a
conflict: nothing is written and the call restarts from its read. -/
theorem GuardedSystem.step_write_conflict {α ε : Type} {s : GuardedSystem α ε} {i : Nat}
    {c : GuardedCall α ε} {seen : Nat} {new : α} {ttl : Option Nat}
    (hc : s.calls[i]? = some c) (hpc : c.pc = .atWrite seen new ttl)
    (h : currentVersion s.backend ≠ seen) :
    s.step i
      = { s with calls := s.calls.set i { c with pc := .atRead, conflicts := c.conflicts + 1 } } := by
  unfold GuardedSystem.step
  simp only [hc, hpc, h, if_false]

/-- Replacing a call by a counted one, without touching backend and log, keeps
the invariant. -/
theorem GuardedSystem.Inv.guarded_set_call {α ε : Type} {s : GuardedSystem α ε} (hs : s.Inv)
    (i : Nat) {c' : GuardedCall α ε} (hok : c'.Counted) :
    GuardedSystem.Inv { s with calls := s.calls.set i c' } := by
  refine ⟨?_, hs.log_sorted, hs.log_lt⟩
  intro d hd
  rcases List.mem_or_eq_of_mem_set hd with h | h
  · exact hs.counted d h
  · rw [h]; exact hok

/-- Every step keeps the invariant. -/
theorem GuardedSystem.Inv.guarded_step {α ε : Type} {s : GuardedSystem α ε} (hs : s.Inv) (i : Nat) :
    (s.step i).Inv := by
  cases hc : s.calls[i]? with
  | none => rw [GuardedSystem.guarded_step_none hc]; exact hs
  | some c =>
    have hcnt := hs.counted c (List.getElem?_mem hc)
    cases hpc : c.pc with
    | finished r => rw [GuardedSystem.step_finished hc hpc]; exact hs
    | atRead =>
      simp only [GuardedCall.Counted, hpc] at hcnt
      cases h : (s.backend.isNone && !c.ignoreNotFound) with
      | true =>
        rw [GuardedSystem.step_read_notFound hc hpc h]
        exact hs.guarded_set_call i (by simp [GuardedCall.Counted])
      | false =>
        cases ht : c.transform (s.backend.map (fun obj => obj.payload))
            ⟨currentVersion s.backend⟩ with
        | error e =>
          rw [GuardedSystem.step_read_error hc hpc h ht]
          exact hs.guarded_set_call i (by simp [GuardedCall.Counted])
        | ok r =>
          obtain ⟨new, ttl⟩ := r
          rw [GuardedSystem.step_read_ok hc hpc h ht]
          exact hs.guarded_set_call i (by simp [GuardedCall.Counted, hcnt])
    | atWrite seen new ttl =>
      simp only [GuardedCall.Counted, hpc] at hcnt
      by_cases h : currentVersion s.backend = seen
      · rw [GuardedSystem.step_write_ok hc hpc h]
        refine ⟨?_, ?_, ?_⟩
        · intro d hd
          rcases List.mem_or_eq_of_mem_set hd with hd | hd
          · exact hs.counted d hd
          · rw [hd]; simp [GuardedCall.Counted, hcnt]
        · simp only [List.map_append, List.map_cons, List.map_nil]
          rw [List.pairwise_append]
          refine ⟨hs.log_sorted, List.pairwise_singleton _ _, ?_⟩
          intro a ha b hb
          simp only [List.mem_singleton] at hb
          obtain ⟨q, hq, hqa⟩ := List.mem_map.1 ha
          rw [hb, ← hqa, ← h]
          exact hs.log_lt q hq
        · intro q hq
          simp only [currentVersion]
          rcases List.mem_append.1 hq with hq | hq
          · exact lt_trans (hs.log_lt q hq) (by rw [h]; exact Nat.lt_succ_self _)
          · simp only [List.mem_singleton] at hq
            rw [hq]
            exact Nat.lt_succ_self _
      · rw [GuardedSystem.step_write_conflict hc hpc h]
        exact hs.guarded_set_call i (by simp [GuardedCall.Counted, hcnt])

/-- The invariant holds at the start. -/
theorem GuardedSystem.Inv.guarded_start {α ε : Type} (backend : Option (StoredObject α))
    (callers : List ((Option α → ResponseMeta → Except ε (α × Option Nat)) × Bool)) :
    (GuardedSystem.start backend callers).Inv := by
  refine ⟨?_, by simp [GuardedSystem.start], by simp [GuardedSystem.start]⟩
  intro c hc
  simp only [GuardedSystem.start, List.mem_map] at hc
  obtain ⟨q, -, hq⟩ := hc
  rw [← hq]
  simp [GuardedCall.Counted]

/-- The invariant holds after every schedule. -/
theorem GuardedSystem.Inv.guarded_run {α ε : Type} {s : GuardedSystem α ε} (hs : s.Inv)
    (sched : List Nat) : (s.run sched).Inv := by
  induction sched generalizing s with
  | nil => exact hs
  | cons i t ih => exact ih (hs.guarded_step i)

/-! ## GuardedUpdate: racing callers -/

/-- C16: guarded updates race on one key, their backend round trips interleaved
by an arbitrary schedule. In every state the schedule leads to:
(1) the ResourceVersions the successful conditional writes were conditioned on
are strictly increasing, so no two writes succeed at the same ResourceVersion;
(2) a call that is about to write, or has written, has invoked its transform
once more than it met conflicts;
(3) when two calls `i` and `j` are about to write against the same, current
ResourceVersion and `i` writes first, exactly that one write succeeds: the key
holds the object of `i` under a fresh version, the log grows by the write of
`i` only, and `j` meets a conflict and is back at its read; with its next step
`j` invokes its transform again, on the object `i` wrote, which makes at least
two invocations. -/
theorem GuardedUpdate_race {α ε : Type} (backend : Option (StoredObject α))
    (callers : List ((Option α → ResponseMeta → Except ε (α × Option Nat)) × Bool))
    (sched : List Nat) (S : GuardedSystem α ε)
    (hS : S = (GuardedSystem.start backend callers).run sched) :
    (S.writes.map Prod.snd).Pairwise (fun a b => a < b) ∧
      (∀ c ∈ S.calls,
        (∀ (seen : Nat) (new : α) (ttl : Option Nat), c.pc = .atWrite seen new ttl →
          c.invoked.length = c.conflicts + 1) ∧
        (∀ obj : StoredObject α, c.pc = .finished (.ok obj) →
          c.invoked.length = c.conflicts + 1)) ∧
      (∀ (i j : Nat) (ci cj : GuardedCall α ε) (rv : Nat) (ni nj : α) (ti tj : Option Nat),
        i ≠ j → S.calls[i]? = some ci → ci.pc = .atWrite rv ni ti →
        S.calls[j]? = some cj → cj.pc = .atWrite rv nj tj → currentVersion S.backend = rv →
        ((S.step i).step j).backend = some ⟨ni, rv + 1, ti⟩ ∧
          ((S.step i).step j).writes = S.writes ++ [(i, rv)] ∧
          ((S.step i).step j).calls[i]?
            = some { ci with pc := .finished (.ok ⟨ni, rv + 1, ti⟩) } ∧
          ((S.step i).step j).calls[j]?
            = some { cj with pc := .atRead, conflicts := cj.conflicts + 1 } ∧
          ∃ cj', (((S.step i).step j).step j).calls[j]? = some cj' ∧
            cj'.invoked = (some ni, rv + 1) :: cj.invoked ∧ 2 ≤ cj'.invoked.length ∧
            cj'.conflicts = cj.conflicts + 1 ∧
            (((S.step i).step j).step j).writes = S.writes ++ [(i, rv)]) := by
  have hinv : S.Inv := by
    rw [hS]
    exact (GuardedSystem.Inv.guarded_start backend callers).guarded_run sched
  refine ⟨hinv.log_sorted, ?_, ?_⟩
  · intro c hc
    have hcnt := hinv.counted c hc
    constructor
    · intro seen new ttl hpc
      simpa only [GuardedCall.Counted, hpc] using hcnt
    · intro obj hpc
      simpa only [GuardedCall.Counted, hpc] using hcnt
  · intro i j ci cj rv ni nj ti tj hij hci hpi hcj hpj hver
    have hi : i < S.calls.length := (List.getElem?_eq_some.1 hci).1
    have hj : j < S.calls.length := (List.getElem?_eq_some.1 hcj).1
    have hcntj : cj.invoked.length = cj.conflicts + 1 := by
      simpa only [GuardedCall.Counted, hpj] using hinv.counted cj (List.getElem?_mem hcj)
    rw [GuardedSystem.step_write_ok hci hpi hver]
    have hcj1 : (S.calls.set i { ci with pc := .finished (.ok ⟨ni, rv + 1, ti⟩) })[j]? = some cj := by
      rw [List.getElem?_set_ne hij]
      exact hcj
    have hne : currentVersion (some (⟨ni, rv + 1, ti⟩ : StoredObject α)) ≠ rv := by
      simp [currentVersion]
    rw [GuardedSystem.step_write_conflict hcj1 hpj hne]
    have hj1 : j < (S.calls.set i { ci with pc := .finished (.ok ⟨ni, rv + 1, ti⟩) }).length := by
      rw [List.length_set]
      exact hj
    have hcj2 : ((S.calls.set i { ci with pc := .finished (.ok ⟨ni, rv + 1, ti⟩) }).set j
        { cj with pc := .atRead, conflicts := cj.conflicts + 1 })[j]?
        = some { cj with pc := .atRead, conflicts := cj.conflicts + 1 } :=
      List.getElem?_set_self hj1
    refine ⟨rfl, rfl, ?_, hcj2, ?_⟩
    · show ((S.calls.set i _).set j _)[i]? = _
      rw [List.getElem?_set_ne (Ne.symm hij), List.getElem?_set_self hi]
    · have hb : ((some (⟨ni, rv + 1, ti⟩ : StoredObject α)).isNone && !cj.ignoreNotFound) = false := by
        simp
      have hj2 : j < ((S.calls.set i { ci with pc := .finished (.ok ⟨ni, rv + 1, ti⟩) }).set j
          { cj with pc := .atRead, conflicts := cj.conflicts + 1 }).length := by
        rw [List.length_set]
        exact hj1
      cases ht : cj.transform (some ni) ⟨rv + 1⟩ with
      | error e =>
        rw [GuardedSystem.step_read_error hcj2 rfl hb ht]
        refine ⟨_, List.getElem?_set_self hj2, rfl, ?_, rfl, rfl⟩
        simp only [List.length_cons]
        omega
      | ok r =>
        obtain ⟨new, ttl⟩ := r
        rw [GuardedSystem.step_read_ok hcj2 rfl hb ht]
        refine ⟨_, List.getElem?_set_self hj2, rfl, ?_, rfl, rfl⟩
        simp only [List.length_cons]
        omega

/-- Witness of C16: two callers increment a counter stored as 0 under version 1.
Both read it; the write of the first succeeds, leaving 1 under version 2 and a
single logged write, while the second is sent back to its read. Run to the
end, the counter is 2 under version 3. -/
theorem GuardedUpdate_race_witness :
    (((GuardedSystem.start (some ⟨0, 1, none⟩)
        [((fun o _ => Except.ok (o.getD 0 + 1, none)), false),
         ((fun o _ => Except.ok (o.getD 0 + 1, none)), false)]
        : GuardedSystem Nat Unit).run [0, 1, 0, 1]).backend = some ⟨1, 2, none⟩ ∧
      ((GuardedSystem.start (some ⟨0, 1, none⟩)
        [((fun o _ => Except.ok (o.getD 0 + 1, none)), false),
         ((fun o _ => Except.ok (o.getD 0 + 1, none)), false)]
        : GuardedSystem Nat Unit).run [0, 1, 0, 1]).writes = [(0, 1)]) ∧
      ((GuardedSystem.start (some ⟨0, 1, none⟩)
        [((fun o _ => Except.ok (o.getD 0 + 1, none)), false),
         ((fun o _ => Except.ok (o.getD 0 + 1, none)), false)]
        : GuardedSystem Nat Unit).run [0, 1, 0, 1, 1, 1]).backend = some ⟨2, 3, none⟩ := by
  have h := (GuardedUpdate_race (some ⟨0, 1, none⟩)
    [((fun o _ => Except.ok (o.getD 0 + 1, none)), false),
     ((fun o _ => Except.ok (o.getD 0 + 1, none)), false)]
    [0, 1] ((GuardedSystem.start (some ⟨0, 1, none⟩)
      [((fun o _ => Except.ok (o.getD 0 + 1, none)), false),
       ((fun o _ => Except.ok (o.getD 0 + 1, none)), false)]
      : GuardedSystem Nat Unit).run [0, 1]) rfl).2.2 0 1 _ _ 1 1 1 none none
    (by decide) rfl rfl rfl rfl rfl
  exact ⟨⟨h.1, h.2.1⟩, by decide⟩

/-! ## Key functions: tenant isolation of key ranges -/

/-- The characters of the scan range of an account. -/
theorem account_range_data (pfx a : String) :
    (pfx ++ "/" ++ a ++ "/").data = pfx.data ++ '/' :: (a.data ++ ['/']) := by
  simp [String.data_append]

/-- A text that continues `p/a/` does not begin with `p/b/` when `a` and `b`
differ and contain no `/`. -/
theorem not_initial_of_other_account (p a b rest : List Char) (ha : '/' ∉ a) (hb : '/' ∉ b)
    (hne : a ≠ b) : ¬ (p ++ '/' :: (b ++ ['/']) <+: p ++ '/' :: (a ++ '/' :: rest)) := by
  rintro ⟨t, ht⟩
  rw [List.append_assoc] at ht
  have h := List.cons.inj (List.append_cancel_left ht)
  have h' : b ++ '/' :: t = a ++ '/' :: rest := by simpa using h.2
  exact hne (append_sep_inj_of_not_mem_left b a t rest hb ha h').1.symm

/-- C21: tenant isolation of key ranges. For a fixed prefix and two objects
with valid names whose account IDs are different and contain no `/`, both key
functions succeed on both objects, and no key of one object starts with the
scan range `prefix + "/" + otherAccountID + "/"` of the account of the other. -/
theorem tenant_key_ranges_disjoint (pfx : String) (m₁ m₂ : ObjectMeta)
    (hv₁ : IsValidPathSegmentName m₁.Name = []) (hv₂ : IsValidPathSegmentName m₂.Name = [])
    (ha₁ : '/' ∉ m₁.AccountID.data) (ha₂ : '/' ∉ m₂.AccountID.data)
    (hne : m₁.AccountID ≠ m₂.AccountID) :
    (NamespaceKeyFunc pfx (.withMeta m₁)).2 = none ∧
      (NoNamespaceKeyFunc pfx (.withMeta m₁)).2 = none ∧
      (NamespaceKeyFunc pfx (.withMeta m₂)).2 = none ∧
      (NoNamespaceKeyFunc pfx (.withMeta m₂)).2 = none ∧
      ¬ ((pfx ++ "/" ++ m₂.AccountID ++ "/").data
          <+: (NamespaceKeyFunc pfx (.withMeta m₁)).1.data) ∧
      ¬ ((pfx ++ "/" ++ m₂.AccountID ++ "/").data
          <+: (NoNamespaceKeyFunc pfx (.withMeta m₁)).1.data) ∧
      ¬ ((pfx ++ "/" ++ m₁.AccountID ++ "/").data
          <+: (NamespaceKeyFunc pfx (.withMeta m₂)).1.data) ∧
      ¬ ((pfx ++ "/" ++ m₁.AccountID ++ "/").data
          <+: (NoNamespaceKeyFunc pfx (.withMeta m₂)).1.data) := by
  have hd : m₁.AccountID.data ≠ m₂.AccountID.data := fun h => hne (string_eq_of_data_eq h)
  rw [NamespaceKeyFunc_of_valid pfx m₁ hv₁, NoNamespaceKeyFunc_of_valid pfx m₁ hv₁,
    NamespaceKeyFunc_of_valid pfx m₂ hv₂, NoNamespaceKeyFunc_of_valid pfx m₂ hv₂]
  refine ⟨rfl, rfl, rfl, rfl, ?_, ?_, ?_, ?_⟩
  · rw [account_range_data pfx m₂.AccountID,
      namespaced_key_data pfx m₁.AccountID m₁.Namespace m₁.Name]
    exact not_initial_of_other_account _ _ _ _ ha₁ ha₂ hd
  · rw [account_range_data pfx m₂.AccountID, cluster_key_data pfx m₁.AccountID m₁.Name]
    exact not_initial_of_other_account _ _ _ _ ha₁ ha₂ hd
  · rw [account_range_data pfx m₁.AccountID,
      namespaced_key_data pfx m₂.AccountID m₂.Namespace m₂.Name]
    exact not_initial_of_other_account _ _ _ _ ha₂ ha₁ (Ne.symm hd)
  · rw [account_range_data pfx m₁.AccountID, cluster_key_data pfx m₂.AccountID m₂.Name]
    exact not_initial_of_other_account _ _ _ _ ha₂ ha₁ (Ne.symm hd)

/-- Witness of C21: the accounts `t1` and `t12`, the one name beginning with the
other, with the pod `web` each. -/
theorem tenant_key_ranges_disjoint_witness :
    (NamespaceKeyFunc "/registry/pods" (.withMeta ⟨"web", "default", "t12"⟩)).2 = none ∧
      (NoNamespaceKeyFunc "/registry/pods" (.withMeta ⟨"web", "default", "t12"⟩)).2 = none ∧
      (NamespaceKeyFunc "/registry/pods" (.withMeta ⟨"web", "default", "t1"⟩)).2 = none ∧
      (NoNamespaceKeyFunc "/registry/pods" (.withMeta ⟨"web", "default", "t1"⟩)).2 = none ∧
      ¬ (("/registry/pods" ++ "/" ++ "t1" ++ "/").data
          <+: (NamespaceKeyFunc "/registry/pods" (.withMeta ⟨"web", "default", "t12"⟩)).1.data) ∧
      ¬ (("/registry/pods" ++ "/" ++ "t1" ++ "/").data
          <+: (NoNamespaceKeyFunc "/registry/pods" (.withMeta ⟨"web", "default", "t12"⟩)).1.data) ∧
      ¬ (("/registry/pods" ++ "/" ++ "t12" ++ "/").data
          <+: (NamespaceKeyFunc "/registry/pods" (.withMeta ⟨"web", "default", "t1"⟩)).1.data) ∧
      ¬ (("/registry/pods" ++ "/" ++ "t12" ++ "/").data
          <+: (NoNamespaceKeyFunc "/registry/pods" (.withMeta ⟨"web", "default", "t1"⟩)).1.data) :=
  tenant_key_ranges_disjoint "/registry/pods" ⟨"web", "default", "t12"⟩ ⟨"web", "default", "t1"⟩
    (by decide) (by decide) (by decide) (by decide) (by decide)

/-! ## Storage backend configuration and typed client: defaults -/

/-- C22: for every prefix and codec, `NewDefaultConfig(prefix, codec)` returns a
`Config` with `Prefix = prefix`, `Codec = codec`, `CompactionInterval =
DefaultCompactInterval`, which is 12 hours, that is 43,200,000,000,000 ns (an
`int64` value), and every other field at its zero value: `Type` is
`StorageTypeUnset`, the empty string, `ServerList` is empty, the TLS file names
are empty, `Paging` is false, `Transformer` is nil and `CountMetricPollPeriod`
is 0. -/
theorem NewDefaultConfig_fields {κ τ : Type} (pfx : String) (codec : κ) :
    (storagebackend.NewDefaultConfig pfx codec : storagebackend.Config κ τ)
        = { StorageType := "", Prefix := pfx, ServerList := [], KeyFile := "", CertFile := "",
            CAFile := "", Paging := false, Codec := codec, Transformer := none,
            CompactionInterval := 43200000000000, CountMetricPollPeriod := 0 } ∧
      (storagebackend.NewDefaultConfig pfx codec : storagebackend.Config κ τ).CompactionInterval
        = storagebackend.DefaultCompactInterval ∧
      storagebackend.DefaultCompactInterval = 12 * time.Hour ∧
      storagebackend.DefaultCompactInterval = 43200000000000 ∧
      -(2 : Int) ^ 63 ≤ storagebackend.DefaultCompactInterval ∧
      storagebackend.DefaultCompactInterval < (2 : Int) ^ 63 ∧
      (storagebackend.NewDefaultConfig pfx codec : storagebackend.Config κ τ).StorageType
        = storagebackend.StorageTypeUnset ∧
      storagebackend.StorageTypeUnset = "" ∧
      (storagebackend.NewDefaultConfig pfx codec : storagebackend.Config κ τ).ServerList.length
        = 0 := by
  have h : storagebackend.DefaultCompactInterval = 43200000000000 := by decide
  refine ⟨?_, rfl, rfl, h, ?_, ?_, rfl, rfl, rfl⟩
  · simp only [storagebackend.NewDefaultConfig, h]
  · rw [h]; decide
  · rw [h]; decide

/-- C23: `setConfigDefaults` always returns a nil error; for every input it
sets `APIPath` to `/apis`, `GroupVersion` to the scheme group version of the
networking v1 package and the serializer to the direct codec factory; it
leaves a non-empty `UserAgent` unchanged and replaces an empty one with the
default; it touches no other field. `NewForConfig` applies it to a copy: the
client is built from the defaulted copy and the config of the caller is the
same after the call as before. -/
theorem setConfigDefaults_frame {σ ρ ε γ : Type} (env : ClientEnv σ) (config : RestConfig σ ρ) :
    (setConfigDefaults env config : RestConfig σ ρ × Option ε).2 = none ∧
      (setConfigDefaults env config : RestConfig σ ρ × Option ε).1.APIPath = "/apis" ∧
      (setConfigDefaults env config : RestConfig σ ρ × Option ε).1.GroupVersion
        = some env.SchemeGroupVersion ∧
      (setConfigDefaults env config : RestConfig σ ρ × Option ε).1.NegotiatedSerializer
        = some env.DirectCodecFactory ∧
      (config.UserAgent ≠ "" →
        (setConfigDefaults env config : RestConfig σ ρ × Option ε).1.UserAgent
          = config.UserAgent) ∧
      (config.UserAgent = "" →
        (setConfigDefaults env config : RestConfig σ ρ × Option ε).1.UserAgent
          = env.DefaultKubernetesUserAgent) ∧
      (setConfigDefaults env config : RestConfig σ ρ × Option ε).1.other = config.other ∧
      ∀ (RESTClientFor : RestConfig σ ρ → Except ε γ),
        (NewForConfig env RESTClientFor config).2 = config ∧
          (NewForConfig env RESTClientFor config).1
            = (RESTClientFor (setConfigDefaults env config : RestConfig σ ρ × Option ε).1).map
                ArgusNetworkingV1Client.mk := by
  refine ⟨rfl, ?_, ?_, ?_, ?_, ?_, ?_, ?_⟩
  · unfold setConfigDefaults
    by_cases h : config.UserAgent = "" <;> simp [h]
  · unfold setConfigDefaults
    by_cases h : config.UserAgent = "" <;> simp [h]
  · unfold setConfigDefaults
    by_cases h : config.UserAgent = "" <;> simp [h]
  · intro h
    unfold setConfigDefaults
    simp [h]
  · intro h
    unfold setConfigDefaults
    simp [h]
  · unfold setConfigDefaults
    by_cases h : config.UserAgent = "" <;> simp [h]
  · intro RESTClientFor
    have hs : (setConfigDefaults env config : RestConfig σ ρ × Option ε).2 = none := rfl
    unfold NewForConfig
    rcases hsc : (setConfigDefaults env config : RestConfig σ ρ × Option ε) with ⟨cfg, err⟩
    rw [hsc] at hs
    simp only at hs
    subst hs
    cases hr : RESTClientFor cfg with
    | error e => simp [hsc, hr, Except.map]
    | ok cl => simp [hsc, hr, Except.map]

/-- Witness of C23: a config with an empty user agent and one with the user
agent `edge`; `other` stands for the remaining fields. -/
theorem setConfigDefaults_frame_witness :
    (setConfigDefaults ⟨⟨"networking.k8s.io", "v1"⟩, "codecs", "kubelet/v1.0"⟩
        (⟨"/api", none, none, "", 7⟩ : RestConfig String Nat) : RestConfig String Nat × Option Unit)
      = (⟨"/apis", some ⟨"networking.k8s.io", "v1"⟩, some "codecs", "kubelet/v1.0", 7⟩, none) ∧
    (setConfigDefaults ⟨⟨"networking.k8s.io", "v1"⟩, "codecs", "kubelet/v1.0"⟩
        (⟨"/api", none, none, "edge", 7⟩ : RestConfig String Nat) : RestConfig String Nat × Option Unit)
      = (⟨"/apis", some ⟨"networking.k8s.io", "v1"⟩, some "codecs", "edge", 7⟩, none) ∧
    (setConfigDefaults ⟨⟨"networking.k8s.io", "v1"⟩, "codecs", "kubelet/v1.0"⟩
        (⟨"/api", none, none, "edge", 7⟩ : RestConfig String Nat)
        : RestConfig String Nat × Option Unit).1.UserAgent = "edge" :=
  ⟨by decide, by decide,
    (setConfigDefaults_frame (γ := Unit) ⟨⟨"networking.k8s.io", "v1"⟩, "codecs", "kubelet/v1.0"⟩
      (⟨"/api", none, none, "edge", 7⟩ : RestConfig String Nat)).2.2.2.2.1 (by decide)⟩

end Storage

